import Mathlib

/-!
Shallow embedding of the paging engine of the `bless` pager
(raw `FileBuffer` over a `DeVec`, the line-oriented `FileView`,
the bzip2 buffer's block search and jump, the broker's `Follow`
command and the lazy UTF-8 decoder), together with theorems that
settle the specification claims about them.

Conventions of the embedding:
* a file is a `List Nat` of its bytes; reads of `k` bytes at offset
  `o` return `(file.drop o).take k` (a full read, the normal case for
  regular files); where a claim is about short reads the read size is
  an explicit parameter;
* `usize`/`u64` arithmetic that can wrap in a release build is made
  explicit with `% 2 ^ 64` (release builds of the program compile with
  overflow checks disabled, so subtraction wraps rather than traps);
  saturating_sub maps to truncated `Nat` subtraction;
* `regex::bytes::Regex` values are abstracted as matcher functions:
  `reF : List Nat → Option (Nat × Nat)` for `Regex::find` (leftmost
  match range inside a slice) and `reL` for `find_iter(..).last()`;
  literal patterns get the concrete matcher `litFind`;
* the shared `AtomicBool` cancellation flag is an oracle
  `cancel : Nat → Bool` giving the value observed at the n-th load of
  the flag inside one operation;
* fallible operations return their `Res`ult together with the state
  as mutated so far, mirroring that Rust `?`-returns keep partial
  mutations.
-/

set_option maxHeartbeats 1000000
set_option maxRecDepth 2000

namespace Bless

/-! ## Constants of the source -/

def BUFFER_SIZE : Nat := 0x10000
def FIND_WINDOW : Nat := 0x100000
def FIND_OVERLAP : Nat := 0x1000
def MATCH_WINDOW : Nat := 0x1000
def SHRINK_THRESHOLD : Nat := 1000000
def MAGIC_RFIND_WINDOW : Nat := 0x10000
def MAGIC_RFIND_OVERLAP : Nat := 8
def MAX_INVALID_BLOCKS : Nat := 10
def U64 : Nat := 2 ^ 64

/-! ## List helpers mirroring Rust primitives -/

/-- `Vec::resize(n, d)`: truncate to `n` or extend with `d`. -/
def listResize (l : List α) (n : Nat) (d : α) : List α :=
  if n ≤ l.length then l.take n else l ++ List.replicate (n - l.length) d

/-- `slice::rotate_right(k)` for `k ≤ len`: element `i` moves to `(i+k) % len`. -/
def listRotR (l : List α) (k : Nat) : List α :=
  l.drop (l.length - k) ++ l.take (l.length - k)

/-- File read at offset `off` of at most `k` bytes (full read). -/
def fileRead (file : List Nat) (off k : Nat) : List Nat :=
  (file.drop off).take k

@[simp] theorem listResize_length (l : List α) (n : Nat) (d : α) :
    (listResize l n d).length = n := by
  unfold listResize
  split <;> simp <;> omega

@[simp] theorem listRotR_zero (l : List α) : listRotR l 0 = l := by
  simp [listRotR]

theorem listRotR_split (l1 l2 : List α) :
    listRotR (l1 ++ l2) l2.length = l2 ++ l1 := by
  unfold listRotR
  rw [List.length_append]
  rw [show l1.length + l2.length - l2.length = l1.length by omega]
  rw [List.drop_left, List.take_left]

/-! ## DeVec (`src/file_buffer/devec.rs`)

`DeVec<T>` is a `Vec` with a head offset; the live elements are
`data[offset..]`.  `T` is instantiated at `Nat` (the buffer holds
`u8`, `T::default() = 0`). -/

structure DeVec where
  data : List Nat
  offset : Nat
  deriving DecidableEq, Repr

namespace DeVec

def new : DeVec := ⟨[], 0⟩

def len (v : DeVec) : Nat := v.data.length - v.offset

def asSlice (v : DeVec) : List Nat := v.data.drop v.offset

/-- `clear`: `data.truncate(offset)`. -/
def clear (v : DeVec) : DeVec := ⟨v.data.take v.offset, v.offset⟩

/-- Write `bytes` over `as_mut_slice()[i .. i + bytes.len()]`. -/
def writeAt (v : DeVec) (i : Nat) (bytes : List Nat) : DeVec :=
  ⟨v.data.take (v.offset + i) ++ bytes ++ v.data.drop (v.offset + i + bytes.length),
   v.offset⟩

/-- `as_mut_slice()[..pre].rotate_right(k)`. -/
def rotRRegion (v : DeVec) (pre k : Nat) : DeVec :=
  ⟨v.data.take v.offset ++ listRotR ((v.data.drop v.offset).take pre) k
     ++ v.data.drop (v.offset + pre),
   v.offset⟩

/-- `resize_back(size)`: `data.resize(size + offset, default)`. -/
def resizeBack (v : DeVec) (size : Nat) : DeVec :=
  ⟨listResize v.data (size + v.offset) 0, v.offset⟩

/-- Least power of two that is `≥ n` (for `n ≥ 1`): the source computes
`2usize.pow((x as f64).log2().ceil() as u32)`, exact for the sizes at
hand. -/
def pow2ge (n : Nat) : Nat := go n 1
where go : Nat → Nat → Nat
  | 0, acc => acc
  | fuel + 1, acc => if n ≤ acc then acc else go fuel (acc * 2)

/-- `resize_front(size)`: grow (exposing head storage, reallocating with
fresh defaults when the head offset is exhausted) or shrink by moving
the head offset. -/
def resizeFront (v : DeVec) (size : Nat) : DeVec :=
  let len := v.len
  if size > len then
    let extra := size - len
    let missing := extra - v.offset
    if missing > 0 then
      let newSize := pow2ge (v.data.length + missing)
      let extraAlloc := newSize - (v.data.length + missing)
      ⟨List.replicate (extraAlloc + missing) 0 ++ v.data, extraAlloc⟩
    else
      ⟨v.data, v.offset - extra⟩
  else
    ⟨v.data, v.offset + (len - size)⟩

/-- `shrink_to(size)`: rebalance the head offset down to `size / 2`. -/
def shrinkTo (v : DeVec) (size : Nat) : DeVec :=
  let size := max size v.len
  let maxOffset := size / 2
  if v.offset > maxOffset then
    let shift := v.offset - maxOffset
    ⟨((v.data.drop shift ++ v.data.take shift).take (v.data.length - shift)),
     maxOffset⟩
  else v

/-- Well-formedness: live region is inside the backing vector. -/
def Wf (v : DeVec) : Prop := v.offset ≤ v.data.length

instance (v : DeVec) : Decidable v.Wf := by unfold Wf; infer_instance

@[simp] theorem new_asSlice : new.asSlice = [] := rfl
@[simp] theorem new_len : new.len = 0 := rfl
@[simp] theorem new_offset : new.offset = 0 := rfl

theorem len_eq_length_asSlice (v : DeVec) : v.len = v.asSlice.length := by
  simp [len, asSlice]

@[simp] theorem clear_asSlice (v : DeVec) : v.clear.asSlice = [] := by
  simp [clear, asSlice, List.drop_eq_nil_iff, List.length_take]

theorem clear_len (v : DeVec) : v.clear.len = 0 := by
  simp [clear, len, List.length_take]

theorem wf_new : new.Wf := by simp [Wf, new]

theorem wf_clear (v : DeVec) (h : v.Wf) : v.clear.Wf := by
  unfold Wf at *
  simp [clear, List.length_take]
  omega

theorem wf_resizeBack (v : DeVec) (n : Nat) (h : v.Wf) :
    (v.resizeBack n).Wf := by
  simp [Wf, resizeBack]

theorem len_resizeBack (v : DeVec) (n : Nat) :
    (v.resizeBack n).len = n := by
  simp [len, resizeBack]

theorem asSlice_resizeBack (v : DeVec) (n : Nat) (h : v.Wf) :
    (v.resizeBack n).asSlice = listResize v.asSlice n 0 := by
  simp only [resizeBack, asSlice, listResize, len]
  unfold Wf at h
  split <;> rename_i h1 <;> split <;> rename_i h2
  · rw [List.drop_take]
    congr 1
    omega
  · simp [List.length_drop] at h2
    omega
  · simp [List.length_drop] at h2
    omega
  · rw [List.drop_append_of_le_length h]
    congr 2
    simp [List.length_drop]
    omega

theorem pow2ge_ge (n : Nat) : n ≤ pow2ge n := by
  unfold pow2ge
  suffices h : ∀ fuel acc, 1 ≤ acc → n ≤ fuel + acc → n ≤ pow2ge.go n fuel acc by
    exact h n 1 (by omega) (by omega)
  intro fuel
  induction fuel with
  | zero => intro acc h1 h2; simpa [pow2ge.go] using h2
  | succ m ih =>
    intro acc h1 h2
    unfold pow2ge.go
    split
    · assumption
    · exact ih (acc * 2) (by omega) (by omega)

theorem wf_resizeFront (v : DeVec) (n : Nat) (h : v.Wf) :
    (v.resizeFront n).Wf := by
  unfold Wf at h
  simp only [Wf, resizeFront, len]
  split <;> rename_i h1
  · split <;> rename_i h2
    · simp
      omega
    · simp
      omega
  · simp
    omega

theorem len_resizeFront (v : DeVec) (n : Nat) (h : v.Wf) :
    (v.resizeFront n).len = n := by
  unfold Wf at h
  have hp := pow2ge_ge (v.data.length + (n - v.len - v.offset))
  simp only [resizeFront, len] at *
  split <;> rename_i h1
  · split <;> rename_i h2
    · simp
      omega
    · simp
      omega
  · simp
    omega

/-- Growing `resize_front` when the head offset still has room:
the slice gains `n - len` elements of previously allocated storage. -/
theorem asSlice_resizeFront_reuse (v : DeVec) (n : Nat) (h : v.Wf)
    (h1 : v.len < n) (h2 : n - v.len ≤ v.offset) :
    (v.resizeFront n).asSlice = v.data.drop (v.offset - (n - v.len)) := by
  unfold Wf at h
  simp only [resizeFront, len, asSlice] at *
  rw [if_pos (by omega), if_neg (by omega)]

/-- Growing `resize_front` past the head offset: reallocation puts
`missing` fresh defaults, then the whole old backing vector. -/
theorem asSlice_resizeFront_alloc (v : DeVec) (n : Nat) (h : v.Wf)
    (h1 : v.len < n) (h2 : v.offset < n - v.len) :
    (v.resizeFront n).asSlice
      = List.replicate (n - v.len - v.offset) 0 ++ v.data := by
  unfold Wf at h
  simp only [resizeFront, len, asSlice] at *
  rw [if_pos (by omega), if_pos (by omega)]
  simp only
  rw [List.drop_append_of_le_length (by simp)]
  rw [List.drop_replicate]
  rw [Nat.add_sub_cancel_left]

/-- Shrinking `resize_front` keeps the last `n` elements. -/
theorem asSlice_resizeFront_shrink (v : DeVec) (n : Nat) (h : v.Wf)
    (h1 : n ≤ v.len) :
    (v.resizeFront n).asSlice = v.asSlice.drop (v.len - n) := by
  unfold Wf at h
  simp only [resizeFront, len, asSlice] at *
  split <;> rename_i h2
  · omega
  · simp only [List.drop_drop]

theorem wf_writeAt (v : DeVec) (i : Nat) (bytes : List Nat) (h : v.Wf) :
    (v.writeAt i bytes).Wf := by
  unfold Wf at *
  simp only [writeAt]
  simp [List.length_take]
  omega

theorem asSlice_writeAt (v : DeVec) (i : Nat) (bytes : List Nat) (h : v.Wf) :
    (v.writeAt i bytes).asSlice
      = v.asSlice.take i ++ bytes ++ v.asSlice.drop (i + bytes.length) := by
  unfold Wf at h
  simp only [writeAt, asSlice]
  rw [List.drop_append_of_le_length (by simp [List.length_take]; omega)]
  rw [List.drop_append_of_le_length (by simp [List.length_take]; omega)]
  rw [List.drop_take, List.drop_drop]
  have h1 : v.offset + i - v.offset = i := by omega
  have h2 : v.offset + (i + bytes.length) = v.offset + i + bytes.length := by
    omega
  rw [h1, h2]

theorem wf_rotRRegion (v : DeVec) (pre k : Nat) (h : v.Wf) :
    (v.rotRRegion pre k).Wf := by
  unfold Wf at *
  simp only [rotRRegion]
  simp [List.length_take, listRotR]
  omega

theorem asSlice_rotRRegion (v : DeVec) (pre k : Nat) (h : v.Wf) :
    (v.rotRRegion pre k).asSlice
      = listRotR (v.asSlice.take pre) k ++ v.asSlice.drop pre := by
  unfold Wf at h
  simp only [rotRRegion, asSlice]
  rw [List.drop_append_of_le_length (by simp [List.length_take]; omega)]
  rw [List.drop_append_of_le_length (by simp [List.length_take]; omega)]
  rw [List.drop_take, List.drop_drop]
  simp

theorem wf_shrinkTo (v : DeVec) (n : Nat) (h : v.Wf) :
    (v.shrinkTo n).Wf := by
  unfold Wf at *
  simp only [shrinkTo]
  split
  · simp [List.length_take, List.length_drop]
    omega
  · exact h

theorem asSlice_shrinkTo (v : DeVec) (n : Nat) (h : v.Wf) :
    (v.shrinkTo n).asSlice = v.asSlice := by
  unfold Wf at h
  simp only [shrinkTo, asSlice]
  split
  · rename_i h1
    simp only
    rw [List.take_append_of_le_length (by simp [List.length_drop])]
    rw [List.take_of_length_le (by simp [List.length_drop])]
    rw [List.drop_drop]
    congr 1
    omega
  · rfl

theorem len_shrinkTo (v : DeVec) (n : Nat) (h : v.Wf) :
    (v.shrinkTo n).len = v.len := by
  rw [len_eq_length_asSlice, asSlice_shrinkTo v n h, ← len_eq_length_asSlice]

end DeVec

/-! ## Raw FileBuffer (`src/file_buffer/raw.rs`)

State: `buffer_offset : u64` and the `DeVec<u8>` buffer.  The open file
is the parameter `file : List Nat`.  `read` results are modelled by
`fileRead` (full reads); the variants suffixed `R` take the read size
as an explicit parameter to express short reads. -/

structure RawBuffer where
  bufferOffset : Nat
  buffer : DeVec
  deriving DecidableEq, Repr

namespace RawBuffer

def init : RawBuffer := ⟨0, DeVec.new⟩

def data (b : RawBuffer) : List Nat := b.buffer.asSlice

def rangeStart (b : RawBuffer) : Nat := b.bufferOffset

def rangeEnd (b : RawBuffer) : Nat := b.bufferOffset + b.buffer.len

/-- `jump(bytes)`: clear the store, move both endpoints to `bytes`. -/
def jump (b : RawBuffer) (bytes : Nat) : Nat × RawBuffer :=
  (bytes, ⟨bytes, b.buffer.clear⟩)

/-- `load_prev` with an explicit read result size `r`
(`r ≤ min(try_read_size, file.length - read_offset)`); the bytes read
are `file[read_offset .. read_offset + r]`. -/
def loadPrevR (file : List Nat) (r : Nat) (b : RawBuffer) : Nat × RawBuffer :=
  let tryReadSize := min b.bufferOffset BUFFER_SIZE
  let v1 := b.buffer.resizeFront (b.buffer.len + tryReadSize)
  let readOffset := b.bufferOffset - tryReadSize
  let v2 := v1.writeAt 0 (fileRead file readOffset r)
  let missing := tryReadSize - r
  let v3 := v2.rotRRegion tryReadSize missing
  let v4 := v3.resizeFront (v3.len - missing)
  (r, ⟨b.bufferOffset - r, v4⟩)

/-- `load_prev` with a full read. -/
def loadPrev (file : List Nat) (b : RawBuffer) : Nat × RawBuffer :=
  let tryReadSize := min b.bufferOffset BUFFER_SIZE
  let readOffset := b.bufferOffset - tryReadSize
  loadPrevR file (min tryReadSize (file.length - readOffset)) b

/-- `load_next` with an explicit read result size `r`. -/
def loadNextR (file : List Nat) (r : Nat) (b : RawBuffer) : Nat × RawBuffer :=
  let sizeBefore := b.buffer.len
  let readOffset := b.rangeEnd
  let v1 := b.buffer.resizeBack (sizeBefore + BUFFER_SIZE)
  let bufStart := v1.len - BUFFER_SIZE
  let v2 := v1.writeAt bufStart (fileRead file readOffset r)
  let v3 := v2.resizeBack (sizeBefore + r)
  (r, ⟨b.bufferOffset, v3⟩)

/-- `load_next` with a full read. -/
def loadNext (file : List Nat) (b : RawBuffer) : Nat × RawBuffer :=
  loadNextR file (min BUFFER_SIZE (file.length - b.rangeEnd)) b

/-- `shrink_to(range)`: `none` models the `assert!` panic on an invalid
range; otherwise keep `data[range]` and advance the file offset. -/
def shrinkTo (b : RawBuffer) (a e : Nat) : Option ((Nat × Nat) × RawBuffer) :=
  if a ≤ e ∧ e ≤ (data b).length then
    let v1 := b.buffer.resizeBack e
    let v2 := v1.resizeFront (v1.len - a)
    let v3 := v2.shrinkTo v2.len
    some ((a, e), ⟨b.bufferOffset + a, v3⟩)
  else none

/-- Well-formedness of the backing DeVec. -/
def Wf (b : RawBuffer) : Prop := b.buffer.Wf

theorem wf_init : Wf init := DeVec.wf_new

theorem jump_spec (b : RawBuffer) (bytes : Nat) :
    (b.jump bytes).1 = bytes ∧ (b.jump bytes).2.bufferOffset = bytes ∧
    (b.jump bytes).2.data = [] := by
  refine ⟨rfl, rfl, ?_⟩
  simp [jump, data, DeVec.clear_asSlice]

theorem wf_jump (b : RawBuffer) (bytes : Nat) (h : b.Wf) :
    (b.jump bytes).2.Wf := DeVec.wf_clear _ h

theorem fileRead_length (file : List Nat) (off k : Nat) :
    (fileRead file off k).length = min k (file.length - off) := by
  simp [fileRead, List.length_take, List.length_drop]

theorem listResize_of_ge (l : List α) (n : Nat) (d : α) (h : l.length ≤ n) :
    listResize l n d = l ++ List.replicate (n - l.length) d := by
  unfold listResize
  split <;> rename_i h1
  · have : n = l.length := by omega
    simp [this]
  · rfl

theorem listResize_of_le (l : List α) (n : Nat) (d : α) (h : n ≤ l.length) :
    listResize l n d = l.take n := by
  simp [listResize, h]

/-- Growing `resize_front` prepends `n - len` elements (their content
depends on the storage history). -/
theorem resizeFront_pre (v : DeVec) (n : Nat) (h : v.Wf) (h1 : v.len ≤ n) :
    ∃ pre : List Nat, pre.length = n - v.len ∧
      (v.resizeFront n).asSlice = pre ++ v.asSlice := by
  rcases Nat.eq_or_lt_of_le h1 with he | hlt
  · refine ⟨[], by simp [he], ?_⟩
    rw [DeVec.asSlice_resizeFront_shrink v n h (by omega)]
    simp [← he]
  · rcases le_or_lt (n - v.len) v.offset with hc | hc
    · refine ⟨(v.data.drop (v.offset - (n - v.len))).take (n - v.len), ?_, ?_⟩
      · unfold DeVec.Wf at h
        unfold DeVec.len at *
        simp [List.length_take, List.length_drop]
        omega
      · rw [DeVec.asSlice_resizeFront_reuse v n h (by omega) hc]
        unfold DeVec.asSlice
        conv_lhs => rw [← List.take_append_drop (n - v.len)
          (v.data.drop (v.offset - (n - v.len)))]
        rw [List.drop_drop]
        congr 2
        unfold DeVec.Wf at h
        unfold DeVec.len at *
        omega
    · refine ⟨List.replicate (n - v.len - v.offset) 0 ++ v.data.take v.offset,
        ?_, ?_⟩
      · unfold DeVec.Wf at h
        unfold DeVec.len at *
        simp [List.length_take]
        omega
      · rw [DeVec.asSlice_resizeFront_alloc v n h (by omega) hc]
        unfold DeVec.asSlice
        rw [List.append_assoc, List.take_append_drop]

theorem loadNextR_spec (file : List Nat) (r : Nat) (b : RawBuffer)
    (h : b.Wf) (hrB : r ≤ BUFFER_SIZE)
    (hbytes : (fileRead file b.rangeEnd r).length = r) :
    (b.loadNextR file r).2.data = b.data ++ fileRead file b.rangeEnd r ∧
    (b.loadNextR file r).2.bufferOffset = b.bufferOffset ∧
    (b.loadNextR file r).2.Wf := by
  unfold Wf at h
  have hlen1 : b.buffer.len = (b.buffer.asSlice).length :=
    DeVec.len_eq_length_asSlice _
  have hw1 : (b.buffer.resizeBack (b.buffer.len + BUFFER_SIZE)).Wf :=
    DeVec.wf_resizeBack _ _ h
  have hl1 := DeVec.len_resizeBack b.buffer (b.buffer.len + BUFFER_SIZE)
  have hw2 : ((b.buffer.resizeBack (b.buffer.len + BUFFER_SIZE)).writeAt
      b.buffer.len (fileRead file b.rangeEnd r)).Wf :=
    DeVec.wf_writeAt _ _ _ hw1
  refine ⟨?_, rfl, ?_⟩
  · show (DeVec.asSlice _) = _
    simp only [loadNextR]
    rw [hl1]
    rw [show b.buffer.len + BUFFER_SIZE - BUFFER_SIZE = b.buffer.len by omega]
    have e1 : (b.buffer.resizeBack (b.buffer.len + BUFFER_SIZE)).asSlice
        = b.buffer.asSlice ++ List.replicate BUFFER_SIZE 0 := by
      rw [DeVec.asSlice_resizeBack _ _ h,
          listResize_of_ge _ _ _ (by omega)]
      have hc : b.buffer.len + BUFFER_SIZE - b.buffer.asSlice.length
          = BUFFER_SIZE := by omega
      rw [hc]
    have e2 : ((b.buffer.resizeBack (b.buffer.len + BUFFER_SIZE)).writeAt
          b.buffer.len (fileRead file b.rangeEnd r)).asSlice
        = b.buffer.asSlice ++ fileRead file b.rangeEnd r
            ++ List.replicate (BUFFER_SIZE - r) 0 := by
      rw [DeVec.asSlice_writeAt _ _ _ hw1, e1]
      rw [List.take_append_of_le_length (by omega)]
      rw [List.take_of_length_le (by omega)]
      rw [hbytes, hlen1]
      rw [List.drop_append (r), List.drop_replicate]
    rw [DeVec.asSlice_resizeBack _ _ hw2, e2]
    rw [listResize_of_le _ _ _ (by simp [hbytes]; omega)]
    rw [show b.buffer.asSlice ++ fileRead file b.rangeEnd r
          ++ List.replicate (BUFFER_SIZE - r) 0
        = (b.buffer.asSlice ++ fileRead file b.rangeEnd r)
          ++ List.replicate (BUFFER_SIZE - r) 0 by simp]
    rw [show b.buffer.len + r
        = (b.buffer.asSlice ++ fileRead file b.rangeEnd r).length by
          simp [hbytes]; omega]
    rw [List.take_left]
    rfl
  · show DeVec.Wf _
    apply DeVec.wf_resizeBack
    apply DeVec.wf_writeAt
    exact DeVec.wf_resizeBack _ _ h

theorem loadNext_spec (file : List Nat) (b : RawBuffer) (h : b.Wf) :
    (b.loadNext file).1 = min BUFFER_SIZE (file.length - b.rangeEnd) ∧
    (b.loadNext file).2.bufferOffset = b.bufferOffset ∧
    (b.loadNext file).2.data
      = b.data ++ fileRead file b.rangeEnd
          (min BUFFER_SIZE (file.length - b.rangeEnd)) ∧
    (b.loadNext file).2.Wf := by
  have hb : (fileRead file b.rangeEnd
      (min BUFFER_SIZE (file.length - b.rangeEnd))).length
      = min BUFFER_SIZE (file.length - b.rangeEnd) := by
    rw [fileRead_length]
    omega
  obtain ⟨h1, h2, h3⟩ := loadNextR_spec file
    (min BUFFER_SIZE (file.length - b.rangeEnd)) b h (by omega) hb
  exact ⟨rfl, h2, h1, h3⟩

theorem loadPrevR_spec (file : List Nat) (r : Nat) (b : RawBuffer)
    (h : b.Wf) (hr : r ≤ min b.bufferOffset BUFFER_SIZE)
    (hbytes : (fileRead file
        (b.bufferOffset - min b.bufferOffset BUFFER_SIZE) r).length = r) :
    (b.loadPrevR file r).2.data
      = fileRead file (b.bufferOffset - min b.bufferOffset BUFFER_SIZE) r
          ++ b.data ∧
    (b.loadPrevR file r).2.bufferOffset = b.bufferOffset - r ∧
    (b.loadPrevR file r).2.Wf := by
  unfold Wf at h
  set tryRead := min b.bufferOffset BUFFER_SIZE with htry
  set bytes := fileRead file (b.bufferOffset - tryRead) r with hbv
  have hlen0 : b.buffer.len = (b.buffer.asSlice).length :=
    DeVec.len_eq_length_asSlice _
  have hw1 : (b.buffer.resizeFront (b.buffer.len + tryRead)).Wf :=
    DeVec.wf_resizeFront _ _ h
  obtain ⟨pre, hpre, he1⟩ :=
    resizeFront_pre b.buffer (b.buffer.len + tryRead) h (by omega)
  rw [show b.buffer.len + tryRead - b.buffer.len = tryRead by omega] at hpre
  have hw2 : ((b.buffer.resizeFront (b.buffer.len + tryRead)).writeAt 0
      bytes).Wf := DeVec.wf_writeAt _ _ _ hw1
  have he2 : ((b.buffer.resizeFront (b.buffer.len + tryRead)).writeAt 0
        bytes).asSlice = (bytes ++ pre.drop r) ++ b.buffer.asSlice := by
    rw [DeVec.asSlice_writeAt _ _ _ hw1, he1]
    rw [List.take_zero, List.nil_append, Nat.zero_add]
    rw [hbytes]
    rw [List.drop_append_of_le_length (by omega)]
    simp
  have hw3 : (((b.buffer.resizeFront (b.buffer.len + tryRead)).writeAt 0
      bytes).rotRRegion tryRead (tryRead - r)).Wf :=
    DeVec.wf_rotRRegion _ _ _ hw2
  have hlen2 : (bytes ++ pre.drop r).length = tryRead := by
    simp [hbytes, List.length_drop]
    omega
  have he3 : (((b.buffer.resizeFront (b.buffer.len + tryRead)).writeAt 0
        bytes).rotRRegion tryRead (tryRead - r)).asSlice
      = (pre.drop r ++ bytes) ++ b.buffer.asSlice := by
    rw [DeVec.asSlice_rotRRegion _ _ _ hw2, he2]
    rw [show tryRead = (bytes ++ pre.drop r).length from hlen2.symm]
    rw [List.take_left, List.drop_left]
    rw [show (bytes ++ pre.drop r).length - r = (pre.drop r).length by
      simp [hbytes]]
    rw [listRotR_split bytes (pre.drop r)]
  have hlen3 : (((b.buffer.resizeFront (b.buffer.len + tryRead)).writeAt 0
      bytes).rotRRegion tryRead (tryRead - r)).len
      = tryRead + b.buffer.asSlice.length := by
    rw [DeVec.len_eq_length_asSlice, he3]
    simp [hbytes, List.length_drop]
    omega
  refine ⟨?_, rfl, ?_⟩
  · show (DeVec.asSlice _) = _
    simp only [loadPrevR]
    rw [← htry, ← hbv]
    rw [DeVec.asSlice_resizeFront_shrink _ _ hw3 (by omega)]
    rw [he3, hlen3]
    rw [show tryRead + b.buffer.asSlice.length
        - (tryRead + b.buffer.asSlice.length - (tryRead - r))
        = tryRead - r by omega]
    rw [show tryRead - r = (pre.drop r).length by
      simp [List.length_drop]; omega]
    rw [List.append_assoc, List.drop_left]
    rfl
  · show DeVec.Wf _
    apply DeVec.wf_resizeFront
    exact hw3

theorem loadPrev_spec (file : List Nat) (b : RawBuffer) (h : b.Wf) :
    (b.loadPrev file).1
      = min (min b.bufferOffset BUFFER_SIZE)
          (file.length - (b.bufferOffset - min b.bufferOffset BUFFER_SIZE)) ∧
    (b.loadPrev file).2.bufferOffset
      = b.bufferOffset - (b.loadPrev file).1 ∧
    (b.loadPrev file).2.data
      = fileRead file (b.bufferOffset - min b.bufferOffset BUFFER_SIZE)
          ((b.loadPrev file).1) ++ b.data ∧
    (b.loadPrev file).2.Wf := by
  have hb : (fileRead file (b.bufferOffset - min b.bufferOffset BUFFER_SIZE)
      (min (min b.bufferOffset BUFFER_SIZE)
        (file.length - (b.bufferOffset - min b.bufferOffset BUFFER_SIZE)))).length
      = min (min b.bufferOffset BUFFER_SIZE)
          (file.length - (b.bufferOffset - min b.bufferOffset BUFFER_SIZE)) := by
    rw [fileRead_length]
    omega
  obtain ⟨h1, h2, h3⟩ := loadPrevR_spec file
    (min (min b.bufferOffset BUFFER_SIZE)
      (file.length - (b.bufferOffset - min b.bufferOffset BUFFER_SIZE)))
    b h (by omega) hb
  exact ⟨rfl, h2, h1, h3⟩

theorem rangeEnd_eq (b : RawBuffer) :
    b.rangeEnd = b.bufferOffset + (b.data).length := by
  unfold rangeEnd
  rw [DeVec.len_eq_length_asSlice]
  rfl

theorem shrinkTo_spec (b : RawBuffer) (a e : Nat) (h : b.Wf)
    (hae : a ≤ e) (hel : e ≤ (data b).length) :
    ∃ b', b.shrinkTo a e = some ((a, e), b') ∧
      b'.data = (b.data.take e).drop a ∧
      b'.bufferOffset = b.bufferOffset + a ∧ b'.Wf := by
  unfold Wf at h
  simp only [data] at hel ⊢
  have hlen0 : b.buffer.len = (b.buffer.asSlice).length :=
    DeVec.len_eq_length_asSlice _
  have hw1 : (b.buffer.resizeBack e).Wf := DeVec.wf_resizeBack _ _ h
  have he1 : (b.buffer.resizeBack e).asSlice = b.buffer.asSlice.take e := by
    rw [DeVec.asSlice_resizeBack _ _ h, listResize_of_le _ _ _ (by omega)]
  have hl1 : (b.buffer.resizeBack e).len = e := DeVec.len_resizeBack _ _
  have hw2 : ((b.buffer.resizeBack e).resizeFront
      ((b.buffer.resizeBack e).len - a)).Wf := DeVec.wf_resizeFront _ _ hw1
  have he2 : ((b.buffer.resizeBack e).resizeFront
        ((b.buffer.resizeBack e).len - a)).asSlice
      = (b.buffer.asSlice.take e).drop a := by
    rw [DeVec.asSlice_resizeFront_shrink _ _ hw1 (by omega), he1, hl1]
    rw [show e - (e - a) = a by omega]
  unfold shrinkTo
  rw [if_pos ⟨hae, by simpa [data] using hel⟩]
  refine ⟨_, rfl, ?_, rfl, ?_⟩
  · show DeVec.asSlice _ = _
    rw [DeVec.asSlice_shrinkTo _ _ hw2, he2]
  · show DeVec.Wf _
    exact DeVec.wf_shrinkTo _ _ hw2

end RawBuffer

/-- Result of the windowed `find`/`rfind` over the memory map. -/
inductive FindRes where
  | found (s e : Nat)
  | nomatch
  | interrupted
  deriving DecidableEq, Repr

/-- One `find` window loop step (`RawBuffer::find`): scan
`mmap[begin_..min (begin_+FIND_WINDOW) len]`, slide by
`FIND_WINDOW - FIND_OVERLAP`, checking the cancel flag between
windows.  `k` counts flag loads. -/
def rawFindGo (file : List Nat) (reF : List Nat → Option (Nat × Nat))
    (cancel : Nat → Bool) (begin_ k : Nat) : FindRes :=
  let end_ := min (begin_ + FIND_WINDOW) file.length
  match reF ((file.drop begin_).take (end_ - begin_)) with
  | some (ms, me) => .found (begin_ + ms) (begin_ + me)
  | none =>
    if h : end_ = file.length then .nomatch
    else if cancel k then .interrupted
    else rawFindGo file reF cancel (end_ - FIND_OVERLAP) (k + 1)
termination_by file.length - begin_
decreasing_by
  have hlt : begin_ + FIND_WINDOW < file.length := by
    rcases Nat.lt_or_ge (begin_ + FIND_WINDOW) file.length with h1 | h1
    · exact h1
    · exact absurd (Nat.min_eq_right h1) h
  have : min (begin_ + FIND_WINDOW) file.length = begin_ + FIND_WINDOW :=
    Nat.min_eq_left (Nat.le_of_lt hlt)
  simp only [this, FIND_WINDOW, FIND_OVERLAP] at *
  omega

def rawFind (file : List Nat) (reF : List Nat → Option (Nat × Nat))
    (cancel : Nat → Bool) (b : RawBuffer) : FindRes :=
  rawFindGo file reF cancel b.bufferOffset 0

/-- One `rfind` window loop step (`RawBuffer::rfind`): scan
`mmap[begin_..end_]` for the last match, slide backward. -/
def rawRfindGo (file : List Nat) (reL : List Nat → Option (Nat × Nat))
    (cancel : Nat → Bool) (begin_ end_ k : Nat) : FindRes :=
  match reL ((file.drop begin_).take (end_ - begin_)) with
  | some (ms, me) => .found (begin_ + ms) (begin_ + me)
  | none =>
    if begin_ = 0 then .nomatch
    else if cancel k then .interrupted
    else
      rawRfindGo file reL cancel ((begin_ + FIND_OVERLAP) - FIND_WINDOW)
        (begin_ + FIND_OVERLAP) (k + 1)
termination_by begin_
decreasing_by
  rename_i h _
  simp only [FIND_OVERLAP, FIND_WINDOW]
  omega

def rawRfind (file : List Nat) (reL : List Nat → Option (Nat × Nat))
    (cancel : Nat → Bool) (b : RawBuffer) : FindRes :=
  rawRfindGo file reL cancel (b.bufferOffset - FIND_WINDOW) b.bufferOffset 0

/-! ## FileView (`src/file_view/file_view.rs`) -/

/-- `ViewError` plus the two ways the embedded code can die that Rust
expresses as panics: a failed `assert!`/`unwrap` (`assertFail`) and the
`InfiniteLoopError` of the loop breaker. -/
inductive VErr where
  | bof
  | eof
  | noMatchFound
  | cancelled
  | infiniteLoop
  | assertFail
  | decodeFail
  deriving DecidableEq, Repr

/-- Result of a fallible view operation. -/
inductive Res (α : Type) where
  | ok (a : α)
  | err (e : VErr)
  deriving DecidableEq, Repr

structure FView where
  raw : RawBuffer
  viewOffset : Nat
  currentLine : Option Int
  deriving DecidableEq, Repr

/-- The `ViewState` snapshot triple. -/
structure VState where
  viewOffset : Nat
  bufferPos : Nat
  currentLine : Option Int
  deriving DecidableEq, Repr

namespace FView

/-- `FileView::new`: empty buffer at offset 0, line counter 1. -/
def init : FView := ⟨RawBuffer.init, 0, some 1⟩

/-- `current_view`: `data()[view_offset..]` (clamped to `""` like
`get(..).unwrap_or`). -/
def currentView (s : FView) : List Nat := (s.raw.data).drop s.viewOffset

/-- `above_view`: `data()[..view_offset]`. -/
def aboveView (s : FView) : List Nat := (s.raw.data).take s.viewOffset

def saveState (s : FView) : VState :=
  ⟨s.viewOffset, s.raw.rangeStart, s.currentLine⟩

def loadState (st : VState) (s : FView) : Res Unit × FView :=
  let s1 := { s with viewOffset := st.viewOffset, currentLine := st.currentLine }
  let (_, raw1) := s1.raw.jump st.bufferPos
  (.ok (), { s1 with raw := raw1 })

/-- `maybe_shrink(range)`: below the threshold do nothing, else shrink
the buffer and re-anchor `view_offset` at the kept range start. -/
def maybeShrink (s : FView) (a e : Nat) : Res Unit × FView :=
  if (s.raw.data).length < SHRINK_THRESHOLD then (.ok (), s)
  else
    match s.raw.shrinkTo a e with
    | some ((ra, _), raw1) =>
        (.ok (), { s with raw := raw1, viewOffset := a - ra })
    | none => (.err .assertFail, s)

def maybeShrinkLeft (s : FView) : Res Unit × FView :=
  maybeShrink s s.viewOffset (s.raw.data).length

def maybeShrinkRight (s : FView) : Res Unit × FView :=
  maybeShrink s 0 s.viewOffset

/-- `FileView::load_next`. -/
def fvLoadNext (file : List Nat) (s : FView) : Res Nat × FView :=
  let (r, raw1) := s.raw.loadNext file
  match maybeShrinkLeft { s with raw := raw1 } with
  | (.ok _, s2) => (.ok r, s2)
  | (.err e, s2) => (.err e, s2)

/-- `FileView::load_prev`. -/
def fvLoadPrev (file : List Nat) (s : FView) : Res Nat × FView :=
  let (r, raw1) := s.raw.loadPrev file
  match maybeShrinkRight { s with raw := raw1, viewOffset := s.viewOffset + r } with
  | (.ok _, s2) => (.ok r, s2)
  | (.err e, s2) => (.err e, s2)

end FView

/-! ### nth-newline scans (`src/utils/algorithm.rs`) -/

/-- `find_nth_or_last(data, char, nth)`: first matches left to right,
remembering the last one seen; stop at the `nth` (0-based). Returns
`(count, index)` of the last match seen. -/
def findNthOrLastGo (c nth : Nat) : List Nat → Nat → Nat →
    Option (Nat × Nat) → Option (Nat × Nat)
  | [], _, _, lastFound => lastFound
  | x :: rest, idx, cnt, lastFound =>
    if x = c then
      if nth = cnt then some (cnt, idx)
      else findNthOrLastGo c nth rest (idx + 1) (cnt + 1) (some (cnt, idx))
    else findNthOrLastGo c nth rest (idx + 1) cnt lastFound

def findNthOrLast (l : List Nat) (c nth : Nat) : Option (Nat × Nat) :=
  findNthOrLastGo c nth l 0 0 none

/-- `rfind_nth_or_last`: the same scan from the right, indices still
relative to the original slice. -/
def rfindNthOrLastGo (c nth : Nat) : List Nat → Nat → Nat →
    Option (Nat × Nat) → Option (Nat × Nat)
  | [], _, _, lastFound => lastFound
  | x :: rest, idx, cnt, lastFound =>
    if x = c then
      if nth = cnt then some (cnt, idx)
      else rfindNthOrLastGo c nth rest (idx - 1) (cnt + 1) (some (cnt, idx))
    else rfindNthOrLastGo c nth rest (idx - 1) cnt lastFound

def rfindNthOrLast (l : List Nat) (c nth : Nat) : Option (Nat × Nat) :=
  rfindNthOrLastGo c nth l.reverse (l.length - 1) 0 none

namespace FView

/-! ### Line motion -/

/-- `FileView::up` loop body.  `brk` is the remaining count of the
`InfiniteLoopBreaker` (created with 10, decremented at each iteration,
reset on progress, error when it reaches 0). -/
def upGo (file : List Nat) (s : FView) (lines brk : Nat) : Res Unit × FView :=
  if lines = 0 then (.ok (), s)
  else if brk - 1 = 0 then (.err .infiniteLoop, s)
  else
    match rfindNthOrLast ((s.aboveView).take (s.aboveView.length - 1))
        10 (lines - 1) with
    | some (nth, pos) =>
        upGo file
          { s with viewOffset := pos + 1,
                   currentLine := s.currentLine.map (fun x => x - 1 - nth) }
          (lines - (1 + nth)) 10
    | none =>
      match fvLoadPrev file s with
      | (.ok 0, s1) =>
          if s1.viewOffset = 0 then
            (.err .bof, { s1 with viewOffset := 0, currentLine := some 1 })
          else
            upGo file { s1 with viewOffset := 0, currentLine := some 1 }
              (lines - 1) (brk - 1)
      | (.ok _, s1) => upGo file s1 lines (brk - 1)
      | (.err e, s1) => (.err e, s1)
termination_by (lines, brk)
decreasing_by
  all_goals first
    | exact Prod.Lex.left _ _ (by omega)
    | exact Prod.Lex.right _ (by omega)

def up (file : List Nat) (s : FView) (lines : Nat) : Res Unit × FView :=
  upGo file s lines 10

/-- `FileView::down` loop body. -/
def downGo (file : List Nat) (s : FView) (lines brk : Nat) : Res Unit × FView :=
  if lines = 0 then (.ok (), s)
  else if brk - 1 = 0 then (.err .infiniteLoop, s)
  else
    match findNthOrLast s.currentView 10 (lines - 1) with
    | some (nth, pos) =>
        downGo file
          { s with viewOffset := s.viewOffset + pos + 1,
                   currentLine := s.currentLine.map (fun x => x + 1 + nth) }
          (lines - (1 + nth)) 10
    | none =>
      match fvLoadNext file s with
      | (.ok 0, s1) => (.err .eof, s1)
      | (.ok _, s1) => downGo file s1 lines (brk - 1)
      | (.err e, s1) => (.err e, s1)
termination_by (lines, brk)
decreasing_by
  all_goals first
    | exact Prod.Lex.left _ _ (by omega)
    | exact Prod.Lex.right _ (by omega)

def down (file : List Nat) (s : FView) (lines : Nat) : Res Unit × FView :=
  downGo file s lines 10

/-! ### Byte motion -/

/-- `jump_to_byte(b)`: buffer jump, reset offset; from byte 0 the line
is known to be 1, otherwise unknown, re-aligned by `up(1)`. -/
def jumpToByte (file : List Nat) (bytes : Nat) (s : FView) : Res Unit × FView :=
  let (_, raw1) := s.raw.jump bytes
  let s1 := { s with raw := raw1, viewOffset := 0 }
  if bytes = 0 then (.ok (), { s1 with currentLine := some 1 })
  else up file { s1 with currentLine := none } 1

def top (file : List Nat) (s : FView) : Res Unit × FView :=
  jumpToByte file 0 s

/-- `bottom()`: `jump(total_size - 1)` (u64 wrapping subtraction),
`view_offset = len(data)`, `current_line = 0`. -/
def bottom (file : List Nat) (s : FView) : Res Unit × FView :=
  let (_, raw1) := s.raw.jump ((file.length + (U64 - 1)) % U64)
  (.ok (), { s with raw := raw1,
                    viewOffset := (RawBuffer.data raw1).length,
                    currentLine := some 0 })

/-- The `||`-condition `current_line.is_none() || current_line.unwrap() <= 0`. -/
def lineUnknownOrLe0 (c : Option Int) : Bool :=
  match c with
  | none => true
  | some x => decide (x ≤ 0)

/-- The `||`-condition `current_line.is_none() || current_line.unwrap() > 0`. -/
def lineUnknownOrPos (c : Option Int) : Bool :=
  match c with
  | none => true
  | some x => decide (0 < x)

/-- Dispatch `down(offset)` / `up(-offset)` at the end of `jump_to_line`. -/
def jumpToLineMove (file : List Nat) (off : Int) (s : FView) : Res Unit × FView :=
  if 0 < off then down file s off.natAbs
  else if off < 0 then up file s off.natAbs
  else (.ok (), s)

/-- `jump_to_line(line)`: move to the right side of the file, compute
the line delta, possibly reset to the closer endpoint, then move.
`assertFail` stands for the (unreachable) `unwrap` panic. -/
def jumpToLine (file : List Nat) (line : Int) (s : FView) : Res Unit × FView :=
  let (r1, s1) :=
    if 0 < line ∧ lineUnknownOrLe0 s.currentLine then top file s
    else if line ≤ 0 ∧ lineUnknownOrPos s.currentLine then bottom file s
    else (.ok (), s)
  match r1 with
  | .err e => (.err e, s1)
  | .ok _ =>
    match s1.currentLine with
    | none => (.err .assertFail, s1)
    | some cur =>
      let off := line - cur
      if off.natAbs > line.natAbs then
        let (r2, s2) := if 0 < line then top file s1 else bottom file s1
        match r2 with
        | .err e => (.err e, s2)
        | .ok _ =>
          match s2.currentLine with
          | none => (.err .assertFail, s2)
          | some cur2 => jumpToLineMove file (line - cur2) s2
      else jumpToLineMove file off s1

/-! ### Regex search

For the raw buffer `buffer.find`/`buffer.rfind` never return
`ErrorKind::Unsupported`, so the generic fallback scan below the fast
path in the source is dead code for this buffer and the fast path is
the whole behaviour. -/

/-- `down_to_line_matching(re, skip_current, cancelled)`. -/
def downToLineMatching (file : List Nat) (reF : List Nat → Option (Nat × Nat))
    (cancel : Nat → Bool) (skipCurrent : Bool) (s : FView) : Res Unit × FView :=
  let st := s.saveState
  let s1 := if skipCurrent then (down file s 1).2 else s
  match rawFind file reF cancel s1.raw with
  | .found ms _ => jumpToByte file ms s1
  | .nomatch =>
    match loadState st s1 with
    | (.ok _, s2) => (.err .noMatchFound, s2)
    | (.err e, s2) => (.err e, s2)
  | .interrupted => (.err .cancelled, s1)

/-- Dispatch on the `rfind` result inside `up_to_line_matching`. -/
def upToLineMatchingGo (file : List Nat) (st : VState) (s : FView) :
    FindRes → Res Unit × FView
  | .found ms _ => jumpToByte file ms s
  | .nomatch =>
    match loadState st s with
    | (.ok _, s2) => (.err .noMatchFound, s2)
    | (.err e, s2) => (.err e, s2)
  | .interrupted => (.err .cancelled, s)

/-- `up_to_line_matching(re, cancelled)`. -/
def upToLineMatching (file : List Nat) (reL : List Nat → Option (Nat × Nat))
    (cancel : Nat → Bool) (s : FView) : Res Unit × FView :=
  upToLineMatchingGo file s.saveState s (rawRfind file reL cancel s.raw)

/-! ### Structural facts used by `view` and by the claim proofs -/

/-- Combined well-formedness: the backing DeVec is well formed and the
claimed spec invariant `view_offset ≤ len(data)` holds. -/
def WfI (s : FView) : Prop :=
  s.raw.Wf ∧ s.viewOffset ≤ (s.raw.data).length

theorem wfI_init : WfI init := by
  constructor
  · exact RawBuffer.wf_init
  · simp [init, RawBuffer.init, RawBuffer.data]

/-- `load_state` restores the snapshot triple and jumps the buffer,
clearing its backing data. -/
theorem loadState_spec (st : VState) (s : FView) :
    loadState st s = (.ok (),
      ⟨⟨st.bufferPos, s.raw.buffer.clear⟩, st.viewOffset, st.currentLine⟩) :=
  rfl

theorem maybeShrink_spec (s : FView) (a e : Nat) (h : s.raw.Wf)
    (hae : a ≤ e) (hel : e ≤ (s.raw.data).length) :
    ∃ s', maybeShrink s a e = (.ok (), s') ∧ s'.raw.Wf ∧
      s'.currentLine = s.currentLine ∧
      (s' = s ∨
        (s'.viewOffset = 0 ∧ s'.raw.bufferOffset = s.raw.bufferOffset + a ∧
         s'.raw.data = (s.raw.data.take e).drop a)) := by
  unfold maybeShrink
  split
  · exact ⟨s, rfl, h, rfl, Or.inl rfl⟩
  · obtain ⟨b2, hs2, hd2, ho2, hw2⟩ := RawBuffer.shrinkTo_spec s.raw a e h hae hel
    rw [hs2]
    refine ⟨_, rfl, hw2, rfl, Or.inr ⟨by simp, ho2, hd2⟩⟩

theorem fvLoadNext_spec (file : List Nat) (s : FView) (h : WfI s) :
    ∃ r s', fvLoadNext file s = (.ok r, s') ∧ WfI s' ∧
      r = min BUFFER_SIZE (file.length - s.raw.rangeEnd) ∧
      s'.currentLine = s.currentLine ∧
      s'.raw.rangeEnd = s.raw.rangeEnd + r := by
  obtain ⟨hw, hvo⟩ := h
  obtain ⟨hr1, hoff, hdata, hw1⟩ := RawBuffer.loadNext_spec file s.raw hw
  set r := min BUFFER_SIZE (file.length - s.raw.rangeEnd) with hrdef
  have hbl : (fileRead file s.raw.rangeEnd r).length = r := by
    rw [RawBuffer.fileRead_length]
    omega
  have hdl : ((s.raw.loadNext file).2.data).length
      = (s.raw.data).length + r := by
    rw [hdata]
    simp [hbl]
  have hre : (s.raw.loadNext file).2.rangeEnd = s.raw.rangeEnd + r := by
    rw [RawBuffer.rangeEnd_eq, RawBuffer.rangeEnd_eq, hoff, hdl]
    omega
  obtain ⟨s2, hms, hw2, hcl2, hst2⟩ := maybeShrink_spec
    { s with raw := (s.raw.loadNext file).2 }
    s.viewOffset ((s.raw.loadNext file).2.data).length hw1
    (by omega) (Nat.le_refl _)
  have hcore : fvLoadNext file s = (.ok r, s2) := by
    unfold fvLoadNext maybeShrinkLeft
    simp only
    rw [hms, hr1]
  rcases hst2 with heq | ⟨hv0, hob, hdb⟩
  · refine ⟨r, s2, hcore, ⟨hw2, ?_⟩, rfl, by rw [hcl2], by rw [heq]; exact hre⟩
    rw [heq]
    simp only
    rw [hdl]
    omega
  · have hlen2 : (s2.raw.data).length
        = ((s.raw.loadNext file).2.data).length - s.viewOffset := by
      rw [hdb]
      simp only
      rw [List.take_of_length_le (by omega)]
      exact List.length_drop _ _
    have hob2 : s2.raw.bufferOffset = s.raw.bufferOffset + s.viewOffset := by
      rw [hob]
      simp only
      rw [hoff]
    refine ⟨r, s2, hcore, ⟨hw2, ?_⟩, rfl, by rw [hcl2], ?_⟩
    · omega
    · rw [RawBuffer.rangeEnd_eq, RawBuffer.rangeEnd_eq, hlen2, hob2, hdl]
      omega

/-- The number of bytes a full-read `load_prev` returns. -/
def loadPrevSize (file : List Nat) (b : RawBuffer) : Nat :=
  min (min b.bufferOffset BUFFER_SIZE)
    (file.length - (b.bufferOffset - min b.bufferOffset BUFFER_SIZE))

theorem fvLoadPrev_spec (file : List Nat) (s : FView) (h : WfI s) :
    ∃ r s', fvLoadPrev file s = (.ok r, s') ∧ WfI s' ∧
      r = loadPrevSize file s.raw ∧
      s'.currentLine = s.currentLine ∧
      s'.raw.bufferOffset = s.raw.bufferOffset - r ∧
      s'.raw.bufferOffset + s'.viewOffset
        ≤ s.raw.bufferOffset + s.viewOffset ∧
      (r = 0 → s'.raw.bufferOffset = s.raw.bufferOffset ∧
        (s'.viewOffset = s.viewOffset ∨ s'.viewOffset = 0)) := by
  obtain ⟨hw, hvo⟩ := h
  obtain ⟨hr1, hoff, hdata, hw1⟩ := RawBuffer.loadPrev_spec file s.raw hw
  set r := (s.raw.loadPrev file).1 with hrdef
  have hrle : r ≤ s.raw.bufferOffset := by
    rw [hr1]
    omega
  have hbl : (fileRead file
      (s.raw.bufferOffset - min s.raw.bufferOffset BUFFER_SIZE) r).length
      = r := by
    rw [RawBuffer.fileRead_length, hr1]
    omega
  have hdl : ((s.raw.loadPrev file).2.data).length
      = (s.raw.data).length + r := by
    rw [hdata]
    simp [hbl]
    omega
  obtain ⟨s2, hms, hw2, hcl2, hst2⟩ := maybeShrink_spec
    { s with raw := (s.raw.loadPrev file).2, viewOffset := s.viewOffset + r }
    0 (s.viewOffset + r) hw1 (by omega)
    (by show s.viewOffset + r ≤ ((s.raw.loadPrev file).2.data).length; omega)
  have hcore : fvLoadPrev file s = (.ok r, s2) := by
    unfold fvLoadPrev maybeShrinkRight
    simp only
    rw [hms]
  rcases hst2 with heq | ⟨hv0, hob, hdb⟩
  · refine ⟨r, s2, hcore, ⟨hw2, ?_⟩, by rw [hr1]; rfl, by rw [hcl2],
      by rw [heq]; exact hoff, ?_, ?_⟩
    · rw [heq]
      simp only
      omega
    · rw [heq]
      simp only
      rw [hoff]
      omega
    · intro hr0
      rw [heq]
      simp only
      rw [hoff, hr0]
      exact ⟨by omega, Or.inl (by omega)⟩
  · refine ⟨r, s2, hcore, ⟨hw2, by omega⟩, by rw [hr1]; rfl, by rw [hcl2],
      ?_, ?_, ?_⟩
    · rw [hob]
      simp only
      rw [hoff]
      omega
    · rw [hob, hv0]
      simp only
      rw [hoff]
      omega
    · intro hr0
      rw [hob]
      simp only
      rw [hoff, hr0]
      exact ⟨by omega, Or.inr hv0⟩

/-- `fvLoadNext` on a state that stays below the shrink threshold:
the loaded bytes are appended, nothing else changes. -/
theorem fvLoadNext_facts (file : List Nat) (s : FView) (h : WfI s)
    (hsmall : (s.raw.data).length
        + min BUFFER_SIZE (file.length - s.raw.rangeEnd) < SHRINK_THRESHOLD) :
    fvLoadNext file s
        = (.ok (min BUFFER_SIZE (file.length - s.raw.rangeEnd)),
           { s with raw := (s.raw.loadNext file).2 }) ∧
      ((s.raw.loadNext file).2).data
        = s.raw.data ++ fileRead file s.raw.rangeEnd
            (min BUFFER_SIZE (file.length - s.raw.rangeEnd)) ∧
      ((s.raw.loadNext file).2).bufferOffset = s.raw.bufferOffset ∧
      WfI { s with raw := (s.raw.loadNext file).2 } := by
  obtain ⟨hr1, hoff, hdata, hw1⟩ := RawBuffer.loadNext_spec file s.raw h.1
  have hflen : (fileRead file s.raw.rangeEnd
      (min BUFFER_SIZE (file.length - s.raw.rangeEnd))).length
      = min (min BUFFER_SIZE (file.length - s.raw.rangeEnd))
          (file.length - s.raw.rangeEnd) := RawBuffer.fileRead_length _ _ _
  have hlen : (((s.raw.loadNext file).2).data).length < SHRINK_THRESHOLD := by
    rw [hdata, List.length_append, hflen]
    omega
  have hms : maybeShrinkLeft { s with raw := (s.raw.loadNext file).2 }
      = (.ok (), { s with raw := (s.raw.loadNext file).2 }) := by
    unfold maybeShrinkLeft maybeShrink
    simp only
    rw [if_pos hlen]
  refine ⟨?_, hdata, hoff, ⟨hw1, ?_⟩⟩
  · unfold fvLoadNext
    simp only
    rw [hms, hr1]
  · simp only
    rw [hdata, List.length_append]
    have hvo := h.2
    omega

/-- `fvLoadPrev` on a state that stays below the shrink threshold:
the loaded bytes are prepended, `view_offset` advances by the read
size, the file offset rewinds by it. -/
theorem fvLoadPrev_facts (file : List Nat) (s : FView) (h : WfI s)
    (hsmall : (s.raw.data).length
        + (s.raw.loadPrev file).1 < SHRINK_THRESHOLD) :
    fvLoadPrev file s
        = (.ok (s.raw.loadPrev file).1,
           { s with
             raw := (s.raw.loadPrev file).2,
             viewOffset := s.viewOffset + (s.raw.loadPrev file).1 }) ∧
      (s.raw.loadPrev file).1 = loadPrevSize file s.raw ∧
      ((s.raw.loadPrev file).2).data
        = fileRead file
            (s.raw.bufferOffset - min s.raw.bufferOffset BUFFER_SIZE)
            ((s.raw.loadPrev file).1) ++ s.raw.data ∧
      ((s.raw.loadPrev file).2).bufferOffset
        = s.raw.bufferOffset - (s.raw.loadPrev file).1 ∧
      WfI { s with
            raw := (s.raw.loadPrev file).2,
            viewOffset := s.viewOffset + (s.raw.loadPrev file).1 } := by
  obtain ⟨hr1, hoff, hdata, hw1⟩ := RawBuffer.loadPrev_spec file s.raw h.1
  have hflen : (fileRead file
      (s.raw.bufferOffset - min s.raw.bufferOffset BUFFER_SIZE)
      ((s.raw.loadPrev file).1)).length = (s.raw.loadPrev file).1 := by
    rw [RawBuffer.fileRead_length, hr1]
    omega
  have hlen : (((s.raw.loadPrev file).2).data).length < SHRINK_THRESHOLD := by
    rw [hdata, List.length_append]
    omega
  have hms : maybeShrinkRight
      { s with
        raw := (s.raw.loadPrev file).2,
        viewOffset := s.viewOffset + (s.raw.loadPrev file).1 }
      = (.ok (), { s with
                   raw := (s.raw.loadPrev file).2,
                   viewOffset := s.viewOffset + (s.raw.loadPrev file).1 }) := by
    unfold maybeShrinkRight maybeShrink
    simp only
    rw [if_pos hlen]
  refine ⟨?_, hr1, hdata, hoff, ⟨hw1, ?_⟩⟩
  · unfold fvLoadPrev
    simp only
    rw [hms]
  · simp only
    rw [hdata, List.length_append]
    have hvo := h.2
    omega

/-! ### Bounds for the nth-newline scans -/

theorem findNthOrLastGo_some (c nth : Nat) (xs : List Nat) :
    ∀ (idx cnt : Nat) (acc : Option (Nat × Nat)) (n2 p2 : Nat),
      findNthOrLastGo c nth xs idx cnt acc = some (n2, p2) →
      acc = some (n2, p2) ∨ (idx ≤ p2 ∧ p2 < idx + xs.length) := by
  induction xs with
  | nil =>
    intro idx cnt acc n2 p2 h
    exact Or.inl h
  | cons x rest ih =>
    intro idx cnt acc n2 p2 h
    simp only [findNthOrLastGo] at h
    by_cases hx : x = c
    · rw [if_pos hx] at h
      by_cases hn : nth = cnt
      · rw [if_pos hn] at h
        right
        have h2 : cnt = n2 ∧ idx = p2 := by
          have := Option.some.inj h
          exact ⟨congrArg Prod.fst this, congrArg Prod.snd this⟩
        simp [List.length_cons]
        omega
      · rw [if_neg hn] at h
        rcases ih (idx + 1) (cnt + 1) (some (cnt, idx)) n2 p2 h with hacc | hb
        · right
          have h2 : cnt = n2 ∧ idx = p2 := by
            have := Option.some.inj hacc
            exact ⟨congrArg Prod.fst this, congrArg Prod.snd this⟩
          simp [List.length_cons]
          omega
        · right
          simp [List.length_cons] at hb ⊢
          omega
    · rw [if_neg hx] at h
      rcases ih (idx + 1) cnt acc n2 p2 h with hacc | hb
      · exact Or.inl hacc
      · right
        simp [List.length_cons] at hb ⊢
        omega

theorem findNthOrLast_bound {l : List Nat} {c nth n2 p2 : Nat}
    (h : findNthOrLast l c nth = some (n2, p2)) : p2 < l.length := by
  rcases findNthOrLastGo_some c nth l 0 0 none n2 p2 h with h1 | h2
  · exact absurd h1 (by simp)
  · omega

theorem findNthOrLastGo_cnt (c nth : Nat) (xs : List Nat) :
    ∀ (idx cnt : Nat) (acc : Option (Nat × Nat)) (n2 p2 : Nat),
      findNthOrLastGo c nth xs idx cnt acc = some (n2, p2) →
      cnt ≤ nth → (∀ a b2, acc = some (a, b2) → a ≤ nth) → n2 ≤ nth := by
  induction xs with
  | nil =>
    intro idx cnt acc n2 p2 h _ hacc
    exact hacc n2 p2 h
  | cons x rest ih =>
    intro idx cnt acc n2 p2 h hcnt hacc
    simp only [findNthOrLastGo] at h
    by_cases hx : x = c
    · rw [if_pos hx] at h
      by_cases hn : nth = cnt
      · rw [if_pos hn] at h
        have h2 : cnt = n2 := congrArg Prod.fst (Option.some.inj h)
        omega
      · rw [if_neg hn] at h
        refine ih (idx + 1) (cnt + 1) (some (cnt, idx)) n2 p2 h (by omega) ?_
        intro a b2 hab
        have h2 : cnt = a := congrArg Prod.fst (Option.some.inj hab)
        omega
    · rw [if_neg hx] at h
      exact ih (idx + 1) cnt acc n2 p2 h hcnt hacc

theorem findNthOrLast_cnt {l : List Nat} {c nth n2 p2 : Nat}
    (h : findNthOrLast l c nth = some (n2, p2)) : n2 ≤ nth :=
  findNthOrLastGo_cnt c nth l 0 0 none n2 p2 h (Nat.zero_le _)
    (by intro a b2 hab; exact absurd hab (by simp))

theorem rfindNthOrLastGo_some (c nth : Nat) (xs : List Nat) :
    ∀ (idx cnt : Nat) (acc : Option (Nat × Nat)) (n2 p2 : Nat),
      rfindNthOrLastGo c nth xs idx cnt acc = some (n2, p2) →
      acc = some (n2, p2) ∨ p2 ≤ idx := by
  induction xs with
  | nil =>
    intro idx cnt acc n2 p2 h
    exact Or.inl h
  | cons x rest ih =>
    intro idx cnt acc n2 p2 h
    simp only [rfindNthOrLastGo] at h
    by_cases hx : x = c
    · rw [if_pos hx] at h
      by_cases hn : nth = cnt
      · rw [if_pos hn] at h
        have h2 : idx = p2 := congrArg Prod.snd (Option.some.inj h)
        omega
      · rw [if_neg hn] at h
        rcases ih (idx - 1) (cnt + 1) (some (cnt, idx)) n2 p2 h with hacc | hb
        · have h2 : idx = p2 := congrArg Prod.snd (Option.some.inj hacc)
          omega
        · right
          omega
    · rw [if_neg hx] at h
      rcases ih (idx - 1) cnt acc n2 p2 h with hacc | hb
      · exact Or.inl hacc
      · right
        omega

theorem rfindNthOrLast_bound {l : List Nat} {c nth n2 p2 : Nat}
    (h : rfindNthOrLast l c nth = some (n2, p2)) : p2 < l.length := by
  unfold rfindNthOrLast at h
  have hne : l ≠ [] := by
    intro he
    rw [he] at h
    simp [rfindNthOrLastGo] at h
  have hlen : 1 ≤ l.length := by
    cases l with
    | nil => exact absurd rfl hne
    | cons a as => simp
  rcases rfindNthOrLastGo_some c nth l.reverse (l.length - 1) 0 none n2 p2 h
    with h1 | h2
  · exact absurd h1 (by simp)
  · omega

theorem rfindNthOrLastGo_cnt (c nth : Nat) (xs : List Nat) :
    ∀ (idx cnt : Nat) (acc : Option (Nat × Nat)) (n2 p2 : Nat),
      rfindNthOrLastGo c nth xs idx cnt acc = some (n2, p2) →
      cnt ≤ nth → (∀ a b2, acc = some (a, b2) → a ≤ nth) → n2 ≤ nth := by
  induction xs with
  | nil =>
    intro idx cnt acc n2 p2 h _ hacc
    exact hacc n2 p2 h
  | cons x rest ih =>
    intro idx cnt acc n2 p2 h hcnt hacc
    simp only [rfindNthOrLastGo] at h
    by_cases hx : x = c
    · rw [if_pos hx] at h
      by_cases hn : nth = cnt
      · rw [if_pos hn] at h
        have h2 : cnt = n2 := congrArg Prod.fst (Option.some.inj h)
        omega
      · rw [if_neg hn] at h
        refine ih (idx - 1) (cnt + 1) (some (cnt, idx)) n2 p2 h (by omega) ?_
        intro a b2 hab
        have h2 : cnt = a := congrArg Prod.fst (Option.some.inj hab)
        omega
    · rw [if_neg hx] at h
      exact ih (idx - 1) cnt acc n2 p2 h hcnt hacc

theorem rfindNthOrLast_cnt {l : List Nat} {c nth n2 p2 : Nat}
    (h : rfindNthOrLast l c nth = some (n2, p2)) : n2 ≤ nth :=
  rfindNthOrLastGo_cnt c nth l.reverse (l.length - 1) 0 none n2 p2 h
    (Nat.zero_le _) (by intro a b2 hab; exact absurd hab (by simp))

/-! ### Invariant preservation and line-counter arithmetic for the
line-motion loops -/

theorem downGo_wfI (file : List Nat) (s : FView) (lines brk : Nat)
    (h : WfI s) : WfI (downGo file s lines brk).2 := by
  induction s, lines, brk using downGo.induct file with
  | case1 s brk =>
    rw [downGo]
    exact h
  | case2 s lines brk h0 hbrk =>
    rw [downGo, if_neg h0, if_pos hbrk]
    exact h
  | case3 s lines brk h0 hbrk ms me hfind ih =>
    rw [downGo, if_neg h0, if_neg hbrk, hfind]
    apply ih
    obtain ⟨hw, hvo⟩ := h
    refine ⟨hw, ?_⟩
    have hb := findNthOrLast_bound hfind
    unfold currentView at hb
    simp only
    rw [List.length_drop] at hb
    omega
  | case4 s lines brk h0 hbrk hfind s1 hload =>
    rw [downGo, if_neg h0, if_neg hbrk, hfind, hload]
    obtain ⟨r0, s2, he, hw2, _, _, _⟩ := fvLoadNext_spec file s h
    rw [he] at hload
    have : s2 = s1 := congrArg Prod.snd hload
    rw [← this]
    exact hw2
  | case5 s lines brk h0 hbrk hfind a s1 ha hload ih =>
    obtain ⟨r0, s2, he, hw2, _, _, _⟩ := fvLoadNext_spec file s h
    rw [he] at hload
    have heq : s2 = s1 := congrArg Prod.snd hload
    cases a with
    | zero => exact absurd rfl ha
    | succ m =>
      have har : r0 = Nat.succ m := by
        have h2 := congrArg Prod.fst hload
        simp only at h2
        injection h2
      rw [downGo, if_neg h0, if_neg hbrk, hfind, he, har, heq]
      exact ih (heq ▸ hw2)
  | case6 s lines brk h0 hbrk hfind e s1 hload =>
    obtain ⟨r0, s2, he, hw2, _, _, _⟩ := fvLoadNext_spec file s h
    rw [he] at hload
    exact absurd (congrArg Prod.fst hload) (by simp)

theorem upGo_wfI (file : List Nat) (s : FView) (lines brk : Nat)
    (h : WfI s) : WfI (upGo file s lines brk).2 := by
  induction s, lines, brk using upGo.induct file with
  | case1 s brk =>
    rw [upGo]
    exact h
  | case2 s lines brk h0 hbrk =>
    rw [upGo, if_neg h0, if_pos hbrk]
    exact h
  | case3 s lines brk h0 hbrk ms me hfind ih =>
    rw [upGo, if_neg h0, if_neg hbrk, hfind]
    apply ih
    obtain ⟨hw, hvo⟩ := h
    refine ⟨hw, ?_⟩
    have hb := rfindNthOrLast_bound hfind
    unfold aboveView at hb
    simp only
    simp [List.length_take] at hb
    omega
  | case4 s lines brk h0 hbrk hfind s1 hload htop =>
    rw [upGo, if_neg h0, if_neg hbrk, hfind, hload]
    simp only [if_pos htop]
    obtain ⟨r0, s2, he, ⟨hw2, _⟩, _⟩ := fvLoadPrev_spec file s h
    rw [he] at hload
    have heq : s2 = s1 := congrArg Prod.snd hload
    exact ⟨heq ▸ hw2, by simp⟩
  | case5 s lines brk h0 hbrk hfind s1 hload htop ih =>
    rw [upGo, if_neg h0, if_neg hbrk, hfind, hload]
    simp only [if_neg htop]
    obtain ⟨r0, s2, he, ⟨hw2, _⟩, _⟩ := fvLoadPrev_spec file s h
    rw [he] at hload
    have heq : s2 = s1 := congrArg Prod.snd hload
    exact ih ⟨heq ▸ hw2, by simp⟩
  | case6 s lines brk h0 hbrk hfind a s1 ha hload ih =>
    obtain ⟨r0, s2, he, hw2, _⟩ := fvLoadPrev_spec file s h
    rw [he] at hload
    have heq : s2 = s1 := congrArg Prod.snd hload
    cases a with
    | zero => exact absurd rfl ha
    | succ m =>
      have har : r0 = Nat.succ m := by
        have h2 := congrArg Prod.fst hload
        simp only at h2
        injection h2
      rw [upGo, if_neg h0, if_neg hbrk, hfind, he, har, heq]
      exact ih (heq ▸ hw2)
  | case7 s lines brk h0 hbrk hfind e s1 hload =>
    obtain ⟨r0, s2, he, hw2, _⟩ := fvLoadPrev_spec file s h
    rw [he] at hload
    exact absurd (congrArg Prod.fst hload) (by simp)

/-- When the full-read size formula at the current buffer offset is 0
and the view offset is 0, `up` can only fail (`BOF`, or the loop
breaker), leaving `current_line = Some(1)` in the `BOF` case. -/
theorem upGo_stuck (file : List Nat) (s : FView) (lines brk : Nat)
    (h : WfI s) (hvo : s.viewOffset = 0)
    (hr : loadPrevSize file s.raw = 0) (hl : 1 ≤ lines) :
    ∃ e s', upGo file s lines brk = (.err e, s') ∧
      (e = .bof → s'.currentLine = some 1 ∧ s'.viewOffset = 0) := by
  rw [upGo, if_neg (by omega)]
  by_cases hbrk : brk - 1 = 0
  · rw [if_pos hbrk]
    exact ⟨.infiniteLoop, s, rfl, by intro hcontra; cases hcontra⟩
  · rw [if_neg hbrk]
    have hview : (s.aboveView).take (s.aboveView.length - 1) = [] := by
      unfold aboveView
      rw [hvo]
      simp
    rw [hview]
    rw [show rfindNthOrLast [] 10 (lines - 1) = none from rfl]
    obtain ⟨r0, s2, he, ⟨hw2, _⟩, hr0, hcl, hob, habs, hzero⟩ :=
      fvLoadPrev_spec file s h
    have hr00 : r0 = 0 := by rw [hr0, hr]
    rw [hr00] at he hzero
    rw [he]
    obtain ⟨_, hv2⟩ := hzero rfl
    have hv20 : s2.viewOffset = 0 := by
      rcases hv2 with h1 | h1
      · rw [h1, hvo]
      · exact h1
    simp only [if_pos hv20]
    exact ⟨.bof, _, rfl, by intro _; exact ⟨rfl, rfl⟩⟩

theorem upGo_abs (file : List Nat) (s : FView) (lines brk : Nat)
    (h : WfI s) (hl : 1 ≤ lines)
    (hok : (upGo file s lines brk).1 = .ok ()) :
    (upGo file s lines brk).2.raw.bufferOffset
        + (upGo file s lines brk).2.viewOffset
      < s.raw.bufferOffset + s.viewOffset := by
  induction s, lines, brk using upGo.induct file with
  | case1 s brk => omega
  | case2 s lines brk h0 hbrk =>
    rw [upGo, if_neg h0, if_pos hbrk] at hok
    exact absurd hok (by simp)
  | case3 s lines brk h0 hbrk ms me hfind ih =>
    rw [upGo, if_neg h0, if_neg hbrk, hfind] at hok ⊢
    have hb := rfindNthOrLast_bound hfind
    have hme : me + 1 < s.viewOffset := by
      unfold aboveView at hb
      simp [List.length_take] at hb
      omega
    have hwfI : WfI { raw := s.raw, viewOffset := me + 1,
                      currentLine := Option.map (fun x => x - 1 - (ms : Int))
                        s.currentLine } := by
      obtain ⟨hw, hvo⟩ := h
      refine ⟨hw, ?_⟩
      show me + 1 ≤ (s.raw.data).length
      have hb2 := rfindNthOrLast_bound hfind
      unfold aboveView at hb2
      simp [List.length_take] at hb2
      omega
    by_cases hz : lines - (1 + ms) = 0
    · simp only [hz] at hok ⊢
      rw [upGo, if_pos rfl]
      show s.raw.bufferOffset + (me + 1) < s.raw.bufferOffset + s.viewOffset
      omega
    · simp only at hok ⊢
      have := ih hwfI (by omega) hok
      simp only at this
      omega
  | case4 s lines brk h0 hbrk hfind s1 hload htop =>
    rw [upGo, if_neg h0, if_neg hbrk, hfind, hload] at hok
    simp only [if_pos htop] at hok
    exact absurd hok (by simp)
  | case5 s lines brk h0 hbrk hfind s1 hload htop ih =>
    rw [upGo, if_neg h0, if_neg hbrk, hfind, hload] at hok ⊢
    simp only [if_neg htop] at hok ⊢
    obtain ⟨r0, s2, he, ⟨hw2, hvo2⟩, hr0, hcl, hob, habs, hzero⟩ :=
      fvLoadPrev_spec file s h
    rw [he] at hload
    have heq : s2 = s1 := congrArg Prod.snd hload
    have hr00 : r0 = 0 := by
      have h2 := congrArg Prod.fst hload
      simpa using h2
    obtain ⟨hoeq, _⟩ := hzero hr00
    have hvopos : 0 < s.viewOffset := by
      by_contra hc
      apply htop
      rcases (hzero hr00).2 with h1 | h1
      · rw [heq] at h1
        omega
      · rw [heq] at h1
        exact h1
    by_cases hz : lines - 1 = 0
    · rw [hz]
      rw [upGo, if_pos rfl]
      show s1.raw.bufferOffset + 0 < s.raw.bufferOffset + s.viewOffset
      rw [heq] at hoeq
      omega
    · have hstuck := upGo_stuck file
        { raw := s1.raw, viewOffset := 0, currentLine := some 1 }
        (lines - 1) (brk - 1)
        ⟨by exact heq ▸ hw2, by simp⟩ rfl ?_ (by omega)
      · obtain ⟨e2, s3, hs3, _⟩ := hstuck
        rw [hs3] at hok
        exact absurd hok (by simp)
      · show loadPrevSize file s1.raw = 0
        rw [← heq]
        unfold loadPrevSize at hr0 ⊢
        rw [hob, hr00]
        omega
  | case6 s lines brk h0 hbrk hfind a s1 ha hload ih =>
    obtain ⟨r0, s2, he, hw2, hr0, hcl, hob, habs, hzero⟩ :=
      fvLoadPrev_spec file s h
    rw [he] at hload
    have heq : s2 = s1 := congrArg Prod.snd hload
    cases a with
    | zero => exact absurd rfl ha
    | succ m =>
      have har : r0 = Nat.succ m := by
        have h2 := congrArg Prod.fst hload
        simp only at h2
        injection h2
      rw [upGo, if_neg h0, if_neg hbrk, hfind, he, har, heq] at hok ⊢
      have := ih (heq ▸ hw2) hl hok
      rw [heq] at habs
      show (upGo file s1 lines (brk - 1)).2.raw.bufferOffset
          + (upGo file s1 lines (brk - 1)).2.viewOffset
        < s.raw.bufferOffset + s.viewOffset
      omega
  | case7 s lines brk h0 hbrk hfind e s1 hload =>
    obtain ⟨r0, s2, he, hw2, _⟩ := fvLoadPrev_spec file s h
    rw [he] at hload
    exact absurd (congrArg Prod.fst hload) (by simp)

theorem downGo_ok_currentLine (file : List Nat) (s : FView) (lines brk : Nat) :
    WfI s → ∀ x : Int, s.currentLine = some x →
      (downGo file s lines brk).1 = .ok () →
      (downGo file s lines brk).2.currentLine = some (x + lines) := by
  induction s, lines, brk using downGo.induct file with
  | case1 s brk =>
    intro h x hcl hok
    rw [downGo]
    show s.currentLine = some (x + (0 : Nat))
    rw [hcl]
    congr 1
    omega
  | case2 s lines brk h0 hbrk =>
    intro h x hcl hok
    rw [downGo, if_neg h0, if_pos hbrk] at hok
    exact absurd hok (by simp)
  | case3 s lines brk h0 hbrk ms me hfind ih =>
    intro h x hcl hok
    rw [downGo, if_neg h0, if_neg hbrk, hfind] at hok ⊢
    have hms : 1 + ms ≤ lines := by
      have := findNthOrLast_cnt hfind
      omega
    have hwfI : WfI { raw := s.raw, viewOffset := s.viewOffset + me + 1,
                      currentLine := Option.map (fun x => x + 1 + (ms : Int))
                        s.currentLine } := by
      obtain ⟨hw, hvo⟩ := h
      refine ⟨hw, ?_⟩
      show s.viewOffset + me + 1 ≤ (s.raw.data).length
      have hb := findNthOrLast_bound hfind
      unfold currentView at hb
      rw [List.length_drop] at hb
      omega
    have hrec := ih hwfI (x + 1 + ms) (by rw [hcl]; rfl) hok
    show (downGo file { raw := s.raw, viewOffset := s.viewOffset + me + 1,
                        currentLine := Option.map (fun x => x + 1 + (ms : Int))
                          s.currentLine }
        (lines - (1 + ms)) 10).2.currentLine = some (x + lines)
    rw [hrec]
    congr 1
    omega
  | case4 s lines brk h0 hbrk hfind s1 hload =>
    intro h x hcl hok
    rw [downGo, if_neg h0, if_neg hbrk, hfind, hload] at hok
    exact absurd hok (by simp)
  | case5 s lines brk h0 hbrk hfind a s1 ha hload ih =>
    intro h x hcl hok
    obtain ⟨r0, s2, he, hw2, hr2, hcl2, _⟩ := fvLoadNext_spec file s h
    rw [he] at hload
    have heq : s2 = s1 := congrArg Prod.snd hload
    cases a with
    | zero => exact absurd rfl ha
    | succ m =>
      have har : r0 = Nat.succ m := by
        have h2 := congrArg Prod.fst hload
        simpa using h2
      rw [downGo, if_neg h0, if_neg hbrk, hfind, he, har, heq] at hok ⊢
      exact ih (heq ▸ hw2) x (by rw [← heq, hcl2, hcl]) hok
  | case6 s lines brk h0 hbrk hfind e s1 hload =>
    intro h x hcl hok
    obtain ⟨r0, s2, he, hw2, _⟩ := fvLoadNext_spec file s h
    rw [he] at hload
    exact absurd (congrArg Prod.fst hload) (by simp)

theorem upGo_currentLine (file : List Nat) (s : FView) (lines brk : Nat) :
    WfI s → ∀ x : Int, s.currentLine = some x → 1 ≤ lines →
      (((upGo file s lines brk).1 = .ok () →
        ((upGo file s lines brk).2.viewOffset ≠ 0 ∧
         (upGo file s lines brk).2.currentLine = some (x - lines)) ∨
        ((upGo file s lines brk).2.viewOffset = 0 ∧
         (upGo file s lines brk).2.currentLine = some 1)) ∧
       ((upGo file s lines brk).1 = .err .bof →
        (upGo file s lines brk).2.currentLine = some 1 ∧
        (upGo file s lines brk).2.viewOffset = 0)) := by
  induction s, lines, brk using upGo.induct file with
  | case1 s brk =>
    intro h x hcl hl
    exact absurd hl (by omega)
  | case2 s lines brk h0 hbrk =>
    intro h x hcl hl
    rw [upGo, if_neg h0, if_pos hbrk]
    exact ⟨fun hok => absurd hok (by simp), fun herr => absurd herr (by simp)⟩
  | case3 s lines brk h0 hbrk ms me hfind ih =>
    intro h x hcl hl
    have hred : upGo file s lines brk
        = upGo file { raw := s.raw, viewOffset := me + 1,
                      currentLine := Option.map (fun x => x - 1 - (ms : Int))
                        s.currentLine }
            (lines - (1 + ms)) 10 := by
      rw [upGo, if_neg h0, if_neg hbrk, hfind]
    rw [hred]
    have hms : 1 + ms ≤ lines := by
      have := rfindNthOrLast_cnt hfind
      omega
    have hwfI : WfI { raw := s.raw, viewOffset := me + 1,
                      currentLine := Option.map (fun x => x - 1 - (ms : Int))
                        s.currentLine } := by
      obtain ⟨hw, hvo⟩ := h
      refine ⟨hw, ?_⟩
      show me + 1 ≤ (s.raw.data).length
      have hb := rfindNthOrLast_bound hfind
      unfold aboveView at hb
      simp [List.length_take] at hb
      omega
    by_cases hz : lines - (1 + ms) = 0
    · rw [hz]
      constructor
      · intro _
        left
        rw [upGo, if_pos rfl]
        refine ⟨by simp, ?_⟩
        show Option.map (fun x => x - 1 - (ms : Int)) s.currentLine
            = some (x - lines)
        rw [hcl]
        show some (x - 1 - (ms : Int)) = some (x - lines)
        congr 1
        omega
      · intro herr
        rw [upGo, if_pos rfl] at herr
        exact absurd herr (by simp)
    · have hrec := ih hwfI (x - 1 - ms) (by rw [hcl]; rfl) (by omega)
      constructor
      · intro hok
        rcases hrec.1 hok with ⟨hv, hc⟩ | ⟨hv, hc⟩
        · left
          refine ⟨hv, ?_⟩
          rw [hc]
          congr 1
          omega
        · right
          exact ⟨hv, hc⟩
      · exact hrec.2
  | case4 s lines brk h0 hbrk hfind s1 hload htop =>
    intro h x hcl hl
    have hred : upGo file s lines brk
        = (.err .bof,
            { raw := s1.raw, viewOffset := 0, currentLine := some 1 }) := by
      rw [upGo, if_neg h0, if_neg hbrk, hfind, hload]
      simp only [if_pos htop]
    rw [hred]
    exact ⟨fun hok => absurd hok (by simp), fun _ => ⟨rfl, rfl⟩⟩
  | case5 s lines brk h0 hbrk hfind s1 hload htop ih =>
    intro h x hcl hl
    have hred : upGo file s lines brk
        = upGo file { raw := s1.raw, viewOffset := 0, currentLine := some 1 }
            (lines - 1) (brk - 1) := by
      rw [upGo, if_neg h0, if_neg hbrk, hfind, hload]
      simp only [if_neg htop]
    rw [hred]
    obtain ⟨r0, s2, he, ⟨hw2, hvo2⟩, hr0, hcl2, hob, habs, hzero⟩ :=
      fvLoadPrev_spec file s h
    rw [he] at hload
    have heq : s2 = s1 := congrArg Prod.snd hload
    have hr00 : r0 = 0 := by
      have h2 := congrArg Prod.fst hload
      simpa using h2
    by_cases hz : lines - 1 = 0
    · rw [hz]
      constructor
      · intro _
        right
        rw [upGo, if_pos rfl]
        exact ⟨rfl, rfl⟩
      · intro herr
        rw [upGo, if_pos rfl] at herr
        exact absurd herr (by simp)
    · have hstuck := upGo_stuck file
        { raw := s1.raw, viewOffset := 0, currentLine := some 1 }
        (lines - 1) (brk - 1)
        ⟨by exact heq ▸ hw2, by simp⟩ rfl ?_ (by omega)
      · obtain ⟨e2, s3, hs3, himp⟩ := hstuck
        rw [hs3]
        constructor
        · intro hok
          exact absurd hok (by simp)
        · intro herr
          have he2 : e2 = .bof := by simpa using herr
          exact himp he2
      · show loadPrevSize file s1.raw = 0
        rw [← heq]
        unfold loadPrevSize at hr0 ⊢
        rw [hob, hr00]
        omega
  | case6 s lines brk h0 hbrk hfind a s1 ha hload ih =>
    intro h x hcl hl
    obtain ⟨r0, s2, he, hw2, hr0, hcl2, hob, habs, hzero⟩ :=
      fvLoadPrev_spec file s h
    rw [he] at hload
    have heq : s2 = s1 := congrArg Prod.snd hload
    cases a with
    | zero => exact absurd rfl ha
    | succ m =>
      have har : r0 = Nat.succ m := by
        have h2 := congrArg Prod.fst hload
        simpa using h2
      have hred : upGo file s lines brk
          = upGo file s1 lines (brk - 1) := by
        rw [upGo, if_neg h0, if_neg hbrk, hfind, he, har, heq]
        rfl
      rw [hred]
      exact ih (heq ▸ hw2) x (by rw [← heq, hcl2, hcl]) hl
  | case7 s lines brk h0 hbrk hfind e s1 hload =>
    intro h x hcl hl
    obtain ⟨r0, s2, he, hw2, _⟩ := fvLoadPrev_spec file s h
    rw [he] at hload
    exact absurd (congrArg Prod.fst hload) (by simp)

/-! ### One-step reduction lemmas for the motion loops -/

theorem downGo_zero (file : List Nat) (s : FView) (brk : Nat) :
    downGo file s 0 brk = (.ok (), s) := by
  rw [downGo]
  rfl

theorem downGo_found (file : List Nat) (s : FView) (lines brk nth pos : Nat)
    (hl : ¬lines = 0) (hb : ¬brk - 1 = 0)
    (hfind : findNthOrLast s.currentView 10 (lines - 1) = some (nth, pos)) :
    downGo file s lines brk
      = downGo file
          { s with viewOffset := s.viewOffset + pos + 1,
                   currentLine := s.currentLine.map (fun x => x + 1 + nth) }
          (lines - (1 + nth)) 10 := by
  rw [downGo, if_neg hl, if_neg hb, hfind]

theorem downGo_load (file : List Nat) (s : FView) (lines brk r : Nat)
    (s1 : FView) (hl : ¬lines = 0) (hb : ¬brk - 1 = 0)
    (hfind : findNthOrLast s.currentView 10 (lines - 1) = none)
    (hload : fvLoadNext file s = (.ok r, s1)) (hr : r ≠ 0) :
    downGo file s lines brk = downGo file s1 lines (brk - 1) := by
  obtain ⟨m, rfl⟩ := Nat.exists_eq_succ_of_ne_zero hr
  rw [downGo, if_neg hl, if_neg hb, hfind, hload]
  rfl

theorem downGo_eof (file : List Nat) (s : FView) (lines brk : Nat)
    (s1 : FView) (hl : ¬lines = 0) (hb : ¬brk - 1 = 0)
    (hfind : findNthOrLast s.currentView 10 (lines - 1) = none)
    (hload : fvLoadNext file s = (.ok 0, s1)) :
    downGo file s lines brk = (.err .eof, s1) := by
  rw [downGo, if_neg hl, if_neg hb, hfind, hload]

theorem upGo_zero (file : List Nat) (s : FView) (brk : Nat) :
    upGo file s 0 brk = (.ok (), s) := by
  rw [upGo]
  rfl

theorem upGo_found (file : List Nat) (s : FView) (lines brk nth pos : Nat)
    (hl : ¬lines = 0) (hb : ¬brk - 1 = 0)
    (hfind : rfindNthOrLast ((s.aboveView).take (s.aboveView.length - 1))
        10 (lines - 1) = some (nth, pos)) :
    upGo file s lines brk
      = upGo file
          { s with viewOffset := pos + 1,
                   currentLine := s.currentLine.map (fun x => x - 1 - nth) }
          (lines - (1 + nth)) 10 := by
  rw [upGo, if_neg hl, if_neg hb, hfind]

theorem upGo_load (file : List Nat) (s : FView) (lines brk r : Nat)
    (s1 : FView) (hl : ¬lines = 0) (hb : ¬brk - 1 = 0)
    (hfind : rfindNthOrLast ((s.aboveView).take (s.aboveView.length - 1))
        10 (lines - 1) = none)
    (hload : fvLoadPrev file s = (.ok r, s1)) (hr : r ≠ 0) :
    upGo file s lines brk = upGo file s1 lines (brk - 1) := by
  obtain ⟨m, rfl⟩ := Nat.exists_eq_succ_of_ne_zero hr
  rw [upGo, if_neg hl, if_neg hb, hfind, hload]
  rfl

theorem upGo_bof (file : List Nat) (s : FView) (lines brk : Nat)
    (s1 : FView) (hl : ¬lines = 0) (hb : ¬brk - 1 = 0)
    (hfind : rfindNthOrLast ((s.aboveView).take (s.aboveView.length - 1))
        10 (lines - 1) = none)
    (hload : fvLoadPrev file s = (.ok 0, s1)) (hvo : s1.viewOffset = 0) :
    upGo file s lines brk
      = (.err .bof, { s1 with viewOffset := 0, currentLine := some 1 }) := by
  rw [upGo, if_neg hl, if_neg hb, hfind, hload]
  show (if s1.viewOffset = 0
      then ((.err .bof : Res Unit),
            { s1 with viewOffset := 0, currentLine := some 1 })
      else upGo file { s1 with viewOffset := 0, currentLine := some 1 }
             (lines - 1) (brk - 1))
    = (.err .bof, { s1 with viewOffset := 0, currentLine := some 1 })
  rw [if_pos hvo]

theorem upGo_bofreset (file : List Nat) (s : FView) (lines brk : Nat)
    (s1 : FView) (hl : ¬lines = 0) (hb : ¬brk - 1 = 0)
    (hfind : rfindNthOrLast ((s.aboveView).take (s.aboveView.length - 1))
        10 (lines - 1) = none)
    (hload : fvLoadPrev file s = (.ok 0, s1)) (hvo : ¬s1.viewOffset = 0) :
    upGo file s lines brk
      = upGo file { s1 with viewOffset := 0, currentLine := some 1 }
          (lines - 1) (brk - 1) := by
  rw [upGo, if_neg hl, if_neg hb, hfind, hload]
  show (if s1.viewOffset = 0
      then ((.err .bof : Res Unit),
            { s1 with viewOffset := 0, currentLine := some 1 })
      else upGo file { s1 with viewOffset := 0, currentLine := some 1 }
             (lines - 1) (brk - 1))
    = upGo file { s1 with viewOffset := 0, currentLine := some 1 }
        (lines - 1) (brk - 1)
  rw [if_neg hvo]

/-! ### Invariant preservation for the byte motions and searches -/

theorem jumpToByte_wfI (file : List Nat) (bytes : Nat) (s : FView)
    (h : WfI s) : WfI (jumpToByte file bytes s).2 := by
  unfold jumpToByte
  simp only
  split
  · exact ⟨DeVec.wf_clear _ h.1, Nat.zero_le _⟩
  · exact upGo_wfI file _ 1 10 ⟨DeVec.wf_clear _ h.1, Nat.zero_le _⟩

theorem top_wfI (file : List Nat) (s : FView) (h : WfI s) :
    WfI (top file s).2 := jumpToByte_wfI file 0 s h

theorem bottom_wfI (file : List Nat) (s : FView) (h : WfI s) :
    WfI (bottom file s).2 := by
  unfold bottom
  simp only
  exact ⟨DeVec.wf_clear _ h.1, Nat.le_refl _⟩

theorem jumpToLineMove_wfI (file : List Nat) (off : Int) (s : FView)
    (h : WfI s) : WfI (jumpToLineMove file off s).2 := by
  unfold jumpToLineMove
  split
  · exact downGo_wfI file s _ 10 h
  · split
    · exact upGo_wfI file s _ 10 h
    · exact h

theorem jumpToLine_wfI (file : List Nat) (line : Int) (s : FView)
    (h : WfI s) : WfI (jumpToLine file line s).2 := by
  unfold jumpToLine
  have hfirst : WfI (if 0 < line ∧ lineUnknownOrLe0 s.currentLine = true
      then top file s
      else if line ≤ 0 ∧ lineUnknownOrPos s.currentLine = true
      then bottom file s else (.ok (), s)).2 := by
    split
    · exact top_wfI file s h
    · split
      · exact bottom_wfI file s h
      · exact h
  rcases hp : (if 0 < line ∧ lineUnknownOrLe0 s.currentLine = true
      then top file s
      else if line ≤ 0 ∧ lineUnknownOrPos s.currentLine = true
      then bottom file s else (.ok (), s)) with ⟨r1, s1⟩
  rw [hp] at hfirst
  simp only at hfirst ⊢
  cases r1 with
  | err e => exact hfirst
  | ok u =>
    simp only
    rcases hcl : s1.currentLine with _ | cur
    · exact hfirst
    · simp only
      split
      · have hsecond : WfI (if 0 < line then top file s1
            else bottom file s1).2 := by
          split
          · exact top_wfI file s1 hfirst
          · exact bottom_wfI file s1 hfirst
        rcases hp2 : (if 0 < line then top file s1 else bottom file s1)
          with ⟨r2, s2⟩
        rw [hp2] at hsecond
        simp only at hsecond ⊢
        cases r2 with
        | err e => exact hsecond
        | ok u2 =>
          simp only
          rcases hcl2 : s2.currentLine with _ | cur2
          · exact hsecond
          · exact jumpToLineMove_wfI file _ s2 hsecond
      · exact jumpToLineMove_wfI file _ s1 hfirst

/-! ### Branch characterizations of the searches -/

theorem downToLineMatching_found (file : List Nat)
    (reF : List Nat → Option (Nat × Nat)) (cancel : Nat → Bool)
    (skip : Bool) (s : FView) (ms me : Nat)
    (hfr : rawFind file reF cancel
        ((if skip then (down file s 1).2 else s)).raw = .found ms me) :
    downToLineMatching file reF cancel skip s
      = jumpToByte file ms (if skip then (down file s 1).2 else s) := by
  unfold downToLineMatching
  simp only
  rw [hfr]

theorem downToLineMatching_nomatch (file : List Nat)
    (reF : List Nat → Option (Nat × Nat)) (cancel : Nat → Bool)
    (skip : Bool) (s : FView)
    (hfr : rawFind file reF cancel
        ((if skip then (down file s 1).2 else s)).raw = .nomatch) :
    downToLineMatching file reF cancel skip s
      = (.err .noMatchFound,
         ⟨⟨s.raw.rangeStart,
           ((if skip then (down file s 1).2 else s)).raw.buffer.clear⟩,
          s.viewOffset, s.currentLine⟩) := by
  unfold downToLineMatching
  simp only
  rw [hfr, loadState_spec]
  rfl

theorem downToLineMatching_interrupted (file : List Nat)
    (reF : List Nat → Option (Nat × Nat)) (cancel : Nat → Bool)
    (skip : Bool) (s : FView)
    (hfr : rawFind file reF cancel
        ((if skip then (down file s 1).2 else s)).raw = .interrupted) :
    downToLineMatching file reF cancel skip s
      = (.err .cancelled, (if skip then (down file s 1).2 else s)) := by
  unfold downToLineMatching
  simp only
  rw [hfr]

theorem upToLineMatching_found (file : List Nat)
    (reL : List Nat → Option (Nat × Nat)) (cancel : Nat → Bool)
    (s : FView) (ms me : Nat)
    (hfr : rawRfind file reL cancel s.raw = .found ms me) :
    upToLineMatching file reL cancel s = jumpToByte file ms s := by
  unfold upToLineMatching
  rw [hfr, upToLineMatchingGo]

theorem upToLineMatching_nomatch (file : List Nat)
    (reL : List Nat → Option (Nat × Nat)) (cancel : Nat → Bool)
    (s : FView)
    (hfr : rawRfind file reL cancel s.raw = .nomatch) :
    upToLineMatching file reL cancel s
      = (.err .noMatchFound,
         ⟨⟨s.raw.rangeStart, s.raw.buffer.clear⟩,
          s.viewOffset, s.currentLine⟩) := by
  unfold upToLineMatching
  rw [hfr, upToLineMatchingGo, loadState_spec]
  rfl

theorem upToLineMatching_interrupted (file : List Nat)
    (reL : List Nat → Option (Nat × Nat)) (cancel : Nat → Bool)
    (s : FView)
    (hfr : rawRfind file reL cancel s.raw = .interrupted) :
    upToLineMatching file reL cancel s = (.err .cancelled, s) := by
  unfold upToLineMatching
  rw [hfr, upToLineMatchingGo]

theorem downToLineMatching_wfI (file : List Nat)
    (reF : List Nat → Option (Nat × Nat)) (cancel : Nat → Bool)
    (skip : Bool) (s : FView) (h : WfI s)
    (hne : (downToLineMatching file reF cancel skip s).1
      ≠ .err .noMatchFound) :
    WfI (downToLineMatching file reF cancel skip s).2 := by
  have hs1 : WfI (if skip then (down file s 1).2 else s) := by
    split
    · exact downGo_wfI file s 1 10 h
    · exact h
  unfold downToLineMatching at hne ⊢
  simp only at hne ⊢
  cases hfr : rawFind file reF cancel
      (if skip then (down file s 1).2 else s).raw
  · rename_i ms me
    exact jumpToByte_wfI file ms _ hs1
  · exact absurd (by rw [hfr, loadState_spec]) hne
  · exact hs1

theorem upToLineMatching_wfI (file : List Nat)
    (reL : List Nat → Option (Nat × Nat)) (cancel : Nat → Bool)
    (s : FView) (h : WfI s)
    (hne : (upToLineMatching file reL cancel s).1 ≠ .err .noMatchFound) :
    WfI (upToLineMatching file reL cancel s).2 := by
  unfold upToLineMatching at hne ⊢
  cases hfr : rawRfind file reL cancel s.raw
  · rename_i ms me
    rw [upToLineMatchingGo]
    exact jumpToByte_wfI file ms _ h
  · rw [hfr, upToLineMatchingGo, loadState_spec] at hne
    exact absurd rfl hne
  · rw [upToLineMatchingGo]
    exact h

theorem loadState_wfI_iff (st : VState) (s : FView) (h : WfI s) :
    WfI (loadState st s).2 ↔ st.viewOffset = 0 := by
  rw [loadState_spec]
  constructor
  · intro h2
    have h3 := h2.2
    simp only [RawBuffer.data, DeVec.clear_asSlice] at h3
    simpa using h3
  · intro h0
    refine ⟨DeVec.wf_clear _ h.1, ?_⟩
    simp only [RawBuffer.data, DeVec.clear_asSlice]
    rw [h0]
    simp

end FView

/-! ## UTF-8 decoding (`src/utils/utf8.rs` / `src/utils/text.rs`)

`str::from_utf8` semantics: `utf8ValidUpTo` is `Utf8Error::valid_up_to`
(the number of bytes before the first invalid sequence; the whole input
is valid iff it equals the length); `lossyBytes` is the byte content of
`String::from_utf8_lossy` (each maximal invalid subpart replaced by one
U+FFFD, encoded `EF BF BD`). -/

def isCont (b : Nat) : Bool := 128 ≤ b && b ≤ 191

/-- Allowed second byte of a three-byte sequence starting with `b`. -/
def cont2Ok (b c : Nat) : Bool :=
  if b = 224 then 160 ≤ c && c ≤ 191
  else if b = 237 then 128 ≤ c && c ≤ 159
  else isCont c

/-- Allowed second byte of a four-byte sequence starting with `b`. -/
def cont3Ok (b c : Nat) : Bool :=
  if b = 240 then 144 ≤ c && c ≤ 191
  else if b = 244 then 128 ≤ c && c ≤ 143
  else isCont c

def utf8ValidUpTo : List Nat → Nat
  | [] => 0
  | [b] => if b < 128 then 1 else 0
  | [b, c] =>
    if b < 128 then 1 + utf8ValidUpTo [c]
    else if 194 ≤ b && b ≤ 223 then if isCont c then 2 else 0
    else 0
  | [b, c, d] =>
    if b < 128 then 1 + utf8ValidUpTo [c, d]
    else if 194 ≤ b && b ≤ 223 then
      if isCont c then 2 + utf8ValidUpTo [d] else 0
    else if 224 ≤ b && b ≤ 239 then
      if cont2Ok b c && isCont d then 3 else 0
    else 0
  | b :: c :: d :: e :: rest =>
    if b < 128 then 1 + utf8ValidUpTo (c :: d :: e :: rest)
    else if 194 ≤ b && b ≤ 223 then
      if isCont c then 2 + utf8ValidUpTo (d :: e :: rest) else 0
    else if 224 ≤ b && b ≤ 239 then
      if cont2Ok b c && isCont d then 3 + utf8ValidUpTo (e :: rest) else 0
    else if 240 ≤ b && b ≤ 244 then
      if cont3Ok b c && isCont d && isCont e then 4 + utf8ValidUpTo rest
      else 0
    else 0

/-- `valid_up_to` never exceeds the slice length. -/
theorem utf8ValidUpTo_le (l : List Nat) : utf8ValidUpTo l ≤ l.length := by
  induction l using utf8ValidUpTo.induct <;>
    (rw [utf8ValidUpTo]; (try split_ifs) <;> simp_all <;> omega)

/-- The replacement character U+FFFD as UTF-8 bytes. -/
def FFFD : List Nat := [239, 191, 189]

/-- Byte content of `String::from_utf8_lossy`. -/
def lossyBytes : List Nat → List Nat
  | [] => []
  | b :: rest =>
    if b < 128 then b :: lossyBytes rest
    else if 194 ≤ b && b ≤ 223 then
      match rest with
      | c :: r2 =>
        if isCont c then b :: c :: lossyBytes r2
        else FFFD ++ lossyBytes (c :: r2)
      | [] => FFFD
    else if 224 ≤ b && b ≤ 239 then
      match rest with
      | c :: rest2 =>
        if cont2Ok b c then
          match rest2 with
          | d :: r3 =>
            if isCont d then b :: c :: d :: lossyBytes r3
            else FFFD ++ lossyBytes (d :: r3)
          | [] => FFFD
        else FFFD ++ lossyBytes (c :: rest2)
      | [] => FFFD
    else if 240 ≤ b && b ≤ 244 then
      match rest with
      | c :: rest2 =>
        if cont3Ok b c then
          match rest2 with
          | d :: rest3 =>
            if isCont d then
              match rest3 with
              | e :: r4 =>
                if isCont e then b :: c :: d :: e :: lossyBytes r4
                else FFFD ++ lossyBytes (e :: r4)
              | [] => FFFD
            else FFFD ++ lossyBytes (d :: rest3)
          | [] => FFFD
        else FFFD ++ lossyBytes (c :: rest2)
      | [] => FFFD
    else FFFD ++ lossyBytes rest
termination_by l => l.length
decreasing_by all_goals (simp [List.length_cons] <;> omega)

/-- Result of `decode_utf8`: a borrowed `&str` (no copy) holding the
given bytes, or the lossy fallback (`Cow::Owned` in general) on the
given input bytes. -/
inductive Utf8Decoded where
  | borrowed (s : List Nat)
  | lossy (input : List Nat)
  deriving DecidableEq, Repr

/-- `decode_utf8(data)`: borrowed on full validity; on error, borrowed
prefix when `valid_up_to() > data.len() - 4` (wrapping `usize`
subtraction in release builds), else lossy. -/
def decodeUtf8 (data : List Nat) : Utf8Decoded :=
  let v := utf8ValidUpTo data
  if v = data.length then .borrowed data
  else if v > (data.length + (U64 - 4)) % U64 then .borrowed (data.take v)
  else .lossy data

/-- The byte content of the decoded string. -/
def decodedBytes (data : List Nat) : List Nat :=
  match decodeUtf8 data with
  | .borrowed s => s
  | .lossy input => lossyBytes input

/-! ## Text helpers used by `view` -/

/-- Strip one trailing `\r` (what `str::lines` does to each line). -/
def stripCR (l : List Nat) : List Nat :=
  if l.getLast? = some 13 then l.dropLast else l

/-- `str::lines` helper: accumulate the current line reversed, emit on
each `\n` (with `\r` strip), emit a final partial line only if
non-empty. -/
def splitLinesGo : List Nat → List Nat → List (List Nat)
  | [], acc => if acc.isEmpty then [] else [acc.reverse]
  | 10 :: rest, acc => stripCR acc.reverse :: splitLinesGo rest []
  | b :: rest, acc => splitLinesGo rest (b :: acc)

/-- `str::lines`: split on `\n`, strip a trailing `\r` per line, no
trailing empty line. -/
def splitLines (l : List Nat) : List (List Nat) := splitLinesGo l []

/-- `str::chars().count()` on valid UTF-8 bytes: one char per
non-continuation byte. -/
def charCount (l : List Nat) : Nat :=
  (l.filter (fun b => !isCont b)).length

/-- Visual line count of one source line: `div_ceil(chars, ncols)` when
wrapping, else 1. -/
def lineInc (ncols : Option Nat) (line : List Nat) : Nat :=
  match ncols with
  | some w => (charCount line + w - 1) / w
  | none => 1

/-! ## Building the visible text: `FileView::view` -/

namespace FView

/-- `current_view_utf8().lines()`: the current view decoded by
`decode_utf8` and split by `str::lines`, as lists of bytes. -/
def fvLines (s : FView) : List (List Nat) :=
  splitLines (decodedBytes s.currentView)

/-- The `for line in view.lines()` scan of `view`'s first loop:
`some k` models an early `return` carrying the first `k` lines
(`in_lines` after the loop's own bookkeeping), `none` a completed
pass. -/
def viewScan (nlines : Nat) (ncols : Option Nat) :
    List (List Nat) → Nat → Nat → Option Nat
  | [], _, _ => none
  | line :: rest, inLines, outLines =>
    let out2 := outLines + lineInc ncols line
    if out2 > nlines then some inLines
    else if out2 = nlines then some (inLines + 1)
    else viewScan nlines ncols rest (inLines + 1) out2

/-- Total visual height of the current view: the fold in `view`'s
second loop. -/
def viewOut (ncols : Option Nat) (s : FView) : Nat :=
  (fvLines s).foldl (fun acc line => acc + lineInc ncols line) 0

/-- Packaging of `fvLoadNext_spec` for a known `ok` result. -/
theorem fvLoadNext_ok_facts (file : List Nat) (s : FView) (r : Nat)
    (s' : FView) (hs : WfI s) (h : fvLoadNext file s = (.ok r, s')) :
    WfI s' ∧ r = min BUFFER_SIZE (file.length - s.raw.rangeEnd) ∧
    s'.raw.rangeEnd = s.raw.rangeEnd + r := by
  obtain ⟨r2, s2, heq, hw, hr, hcl, hre⟩ := fvLoadNext_spec file s hs
  have h3 := heq.symm.trans h
  have hf : (Res.ok r2 : Res Nat) = Res.ok r := congrArg Prod.fst h3
  have hsx : s2 = s' := congrArg Prod.snd h3
  have hr2 : r2 = r := Res.ok.inj hf
  rw [← hsx, ← hr2]
  exact ⟨hw, hr, hre⟩

/-- Packaging of `upGo_wfI` and `upGo_abs` for a known `ok` result of
`up(1)`: the state stays well formed and the absolute view anchor
strictly decreases. -/
theorem up_ok_wfI_abs (file : List Nat) (s : FView) (u : Unit)
    (s' : FView) (hs : WfI s) (h : up file s 1 = (.ok u, s')) :
    WfI s' ∧ s'.raw.bufferOffset + s'.viewOffset
      < s.raw.bufferOffset + s.viewOffset := by
  have hw := upGo_wfI file s 1 10 hs
  have hok : (upGo file s 1 10).1 = .ok () := by
    show (up file s 1).1 = .ok ()
    rw [h]
  have habs := upGo_abs file s 1 10 hs (by omega) hok
  have hs' : (up file s 1).2 = s' := congrArg Prod.snd h
  rw [← hs']
  exact ⟨hw, habs⟩

/-- Second loop of `view`: move up one line at a time until the view is
at least `nlines` tall (overshoot corrected by one `down`), or give the
whole view when `up` fails. -/
def viewGo2 (file : List Nat) (nlines : Nat) (ncols : Option Nat)
    (s : FView) (hs : WfI s) : Res (List (List Nat)) × FView :=
  match hup : up file s 1 with
  | (.err _, s1) => (.ok (fvLines s1), s1)
  | (.ok u, s1) =>
    if viewOut ncols s1 ≥ nlines then
      if viewOut ncols s1 > nlines then
        (.ok (fvLines (down file s1 1).2), (down file s1 1).2)
      else (.ok (fvLines s1), s1)
    else viewGo2 file nlines ncols s1 (up_ok_wfI_abs file s u s1 hs hup).1
termination_by s.raw.bufferOffset + s.viewOffset
decreasing_by exact (up_ok_wfI_abs file s u s1 hs hup).2

/-- First loop of `view`: scan the current lines, early-return a
prefix once `nlines` visual lines are reached, otherwise load more
data; a zero-byte load breaks into the second loop. -/
def viewGo1 (file : List Nat) (nlines : Nat) (ncols : Option Nat)
    (s : FView) (hs : WfI s) : Res (List (List Nat)) × FView :=
  match viewScan nlines ncols (fvLines s) 0 0 with
  | some k => (.ok ((fvLines s).take k), s)
  | none =>
    match hnext : fvLoadNext file s with
    | (.ok 0, s1) =>
        viewGo2 file nlines ncols s1
          (fvLoadNext_ok_facts file s 0 s1 hs hnext).1
    | (.ok (r + 1), s1) =>
        viewGo1 file nlines ncols s1
          (fvLoadNext_ok_facts file s (r + 1) s1 hs hnext).1
    | (.err e, s1) => (.err e, s1)
termination_by file.length - s.raw.rangeEnd
decreasing_by
  have hfacts := fvLoadNext_ok_facts file s (r + 1) s1 hs hnext
  have h1 := hfacts.2.1
  have h2 := hfacts.2.2
  omega

/-- `FileView::view(nlines, ncols)`. -/
def view (file : List Nat) (nlines : Nat) (ncols : Option Nat)
    (s : FView) (hs : WfI s) : Res (List (List Nat)) × FView :=
  viewGo1 file nlines ncols s hs

theorem viewGo2_up_err (file : List Nat) (nl : Nat) (nc : Option Nat)
    (s : FView) (hs : WfI s) (e : VErr) (s1 : FView)
    (h : up file s 1 = (.err e, s1)) :
    viewGo2 file nl nc s hs = (.ok (fvLines s1), s1) := by
  rw [viewGo2]
  split
  · rename_i x s2 hup2
    rw [h] at hup2
    have hx : s1 = s2 := congrArg Prod.snd hup2
    rw [hx]
  · rename_i u s2 hup2
    rw [h] at hup2
    exact absurd (congrArg Prod.fst hup2) (by simp)

theorem viewGo1_break (file : List Nat) (nl : Nat) (nc : Option Nat)
    (s : FView) (hs : WfI s) (s1 : FView) (hs1 : WfI s1)
    (h1 : viewScan nl nc (fvLines s) 0 0 = none)
    (h2 : fvLoadNext file s = (.ok 0, s1)) :
    viewGo1 file nl nc s hs = viewGo2 file nl nc s1 hs1 := by
  rw [viewGo1]
  simp only [h1]
  split
  · rename_i s2 hnext2
    rw [h2] at hnext2
    have hx : s1 = s2 := congrArg Prod.snd hnext2
    subst hx
    rfl
  · rename_i r s2 hnext2
    rw [h2] at hnext2
    have := congrArg Prod.fst hnext2
    simp only [Res.ok.injEq] at this
    omega
  · rename_i e2 s2 hnext2
    rw [h2] at hnext2
    exact absurd (congrArg Prod.fst hnext2) (by simp)

theorem viewGo2_wfI (file : List Nat) (nl : Nat) (nc : Option Nat)
    (s : FView) (hs : WfI s) : WfI (viewGo2 file nl nc s hs).2 := by
  induction s, hs using viewGo2.induct file nl nc with
  | case1 s hs x s1 hup =>
    rw [viewGo2]
    split
    · rename_i x2 s2 hup2
      have hw := upGo_wfI file s 1 10 hs
      have he : (up file s 1).2 = s2 := by rw [hup2]
      show WfI s2
      rw [← he]
      exact hw
    · rename_i u s2 hup2
      exact absurd (congrArg Prod.fst (hup.symm.trans hup2)) (by simp)
  | case2 s hs u s1 hup hge hgt =>
    rw [viewGo2]
    split
    · rename_i x2 s2 hup2
      exact absurd (congrArg Prod.fst (hup.symm.trans hup2)) (by simp)
    · rename_i u2 s2 hup2
      have hx : s1 = s2 := congrArg Prod.snd (hup.symm.trans hup2)
      subst hx
      rw [if_pos hge, if_pos hgt]
      have hw1 : WfI s1 := by
        have hw := upGo_wfI file s 1 10 hs
        have he : (up file s 1).2 = s1 := by rw [hup2]
        rw [← he]
        exact hw
      exact downGo_wfI file s1 1 10 hw1
  | case3 s hs u s1 hup hge hgt =>
    rw [viewGo2]
    split
    · rename_i x2 s2 hup2
      exact absurd (congrArg Prod.fst (hup.symm.trans hup2)) (by simp)
    · rename_i u2 s2 hup2
      have hx : s1 = s2 := congrArg Prod.snd (hup.symm.trans hup2)
      subst hx
      rw [if_pos hge, if_neg hgt]
      have hw := upGo_wfI file s 1 10 hs
      have he : (up file s 1).2 = s1 := by rw [hup2]
      rw [← he]
      exact hw
  | case4 s hs u s1 hup hge ih =>
    rw [viewGo2]
    split
    · rename_i x2 s2 hup2
      exact absurd (congrArg Prod.fst (hup.symm.trans hup2)) (by simp)
    · rename_i u2 s2 hup2
      have hx : s1 = s2 := congrArg Prod.snd (hup.symm.trans hup2)
      subst hx
      rw [if_neg hge]
      exact ih

theorem viewGo1_wfI (file : List Nat) (nl : Nat) (nc : Option Nat)
    (s : FView) (hs : WfI s) : WfI (viewGo1 file nl nc s hs).2 := by
  induction s, hs using viewGo1.induct file nl nc with
  | case1 s hs k hscan =>
    rw [viewGo1]
    simp only [hscan]
    exact hs
  | case2 s hs hscan s1 hnext =>
    rw [viewGo1]
    simp only [hscan]
    split
    · rename_i s2 hnext2
      have hx : s1 = s2 := congrArg Prod.snd (hnext.symm.trans hnext2)
      subst hx
      exact viewGo2_wfI file nl nc s1 _
    · rename_i r s2 hnext2
      have := congrArg Prod.fst (hnext.symm.trans hnext2)
      simp only [Res.ok.injEq] at this
      omega
    · rename_i e s2 hnext2
      exact absurd (congrArg Prod.fst (hnext.symm.trans hnext2)) (by simp)
  | case3 s hs hscan r s1 hnext ih =>
    rw [viewGo1]
    simp only [hscan]
    split
    · rename_i s2 hnext2
      have := congrArg Prod.fst (hnext.symm.trans hnext2)
      simp only [Res.ok.injEq] at this
      omega
    · rename_i r2 s2 hnext2
      have hx : s1 = s2 := congrArg Prod.snd (hnext.symm.trans hnext2)
      subst hx
      exact ih
    · rename_i e s2 hnext2
      exact absurd (congrArg Prod.fst (hnext.symm.trans hnext2)) (by simp)
  | case4 s hs hscan e s1 hnext =>
    rw [viewGo1]
    simp only [hscan]
    split
    · rename_i s2 hnext2
      exact absurd (congrArg Prod.fst (hnext.symm.trans hnext2)) (by simp)
    · rename_i r2 s2 hnext2
      exact absurd (congrArg Prod.fst (hnext.symm.trans hnext2)) (by simp)
    · rename_i e2 s2 hnext2
      obtain ⟨r2, s3, heq, hw2, hr2, hcl2, hre2⟩ := fvLoadNext_spec file s hs
      exact absurd (congrArg Prod.fst (heq.symm.trans hnext2)) (by simp)

theorem view_wfI (file : List Nat) (nl : Nat) (nc : Option Nat)
    (s : FView) (hs : WfI s) : WfI (view file nl nc s hs).2 :=
  viewGo1_wfI file nl nc s hs

end FView

/-! ## Literal-pattern regex matchers

A `Regex` built from a literal pattern such as `"gam"` or the bzip2
block magic: `litFind` is `Regex::find` (leftmost occurrence) and
`litFindIterLast` is `find_iter(..).last()` (last of the successive
non-overlapping leftmost matches). -/

def litFind (pat : List Nat) : List Nat → Option Nat
  | [] => if pat = [] then some 0 else none
  | x :: rest =>
    if pat.isPrefixOf (x :: rest) then some 0
    else (litFind pat rest).map (· + 1)

/-- Matcher function for a literal pattern, as expected by the search
operations (`find` semantics). -/
def litMatcher (pat : List Nat) (hay : List Nat) : Option (Nat × Nat) :=
  (litFind pat hay).map (fun i => (i, i + pat.length))

/-- `find_iter(..).last()` for a non-empty literal pattern: repeated
leftmost search, each next search starting after the previous match.
The fuel `hay.length + 1` is enough because every step consumes at
least `pat.length ≥ 1` bytes (for `pat = []` the real regex engine has
its own empty-match stepping; that case is unused here). -/
def litFindIterLastGo (pat : List Nat) :
    Nat → List Nat → Nat → Option Nat → Option Nat
  | 0, _, _, acc => acc
  | fuel + 1, rem, base, acc =>
    match litFind pat rem with
    | none => acc
    | some i =>
      litFindIterLastGo pat fuel (rem.drop (i + pat.length))
        (base + i + pat.length) (some (base + i))

def litFindIterLast (pat hay : List Nat) : Option Nat :=
  litFindIterLastGo pat (hay.length + 1) hay 0 none

/-- Matcher function with `find_iter(..).last()` semantics. -/
def litMatcherLast (pat : List Nat) (hay : List Nat) : Option (Nat × Nat) :=
  (litFindIterLast pat hay).map (fun i => (i, i + pat.length))

/-! ## Bzip2 FileBuffer (`src/file_buffer/bzip2.rs`)

Block discovery over the memory map (the raw file bytes) and `jump`.
The bzip2 decompressor (`decode_block`) is an external library; it is
abstracted as an oracle `dec : Nat → Nat → Option (List Nat)` mapping a
candidate compressed `file_range` to its decoded bytes, or `none` when
the decoder errors. -/

/-- The 6-byte block magic `31 41 59 26 53 59`. -/
def bzMagic : List Nat := [0x31, 0x41, 0x59, 0x26, 0x53, 0x59]

structure Bz2Block where
  fileStart : Nat
  fileEnd : Nat
  blockData : List Nat
  deriving DecidableEq, Repr

structure Bz2Buffer where
  header : List Nat
  blocks : List Bz2Block
  decoded : List Nat
  deriving DecidableEq, Repr

namespace Bz2Buffer

/-- `Bz2FileBuffer::new`: 4-byte header, nothing decoded. -/
def mk4 (file : List Nat) : Bz2Buffer := ⟨file.take 4, [], []⟩

/-- `find_block_from(byte)`: first magic at or after `byte`, else the
`mmap.len() - 1` sentinel. -/
def findBlockFrom (file : List Nat) (byte : Nat) : Nat :=
  match litFind bzMagic (file.drop byte) with
  | some i => byte + i
  | none => file.length - 1

/-- `rfind_block_from(byte)` window loop: last magic in
`mmap[start..end]`, sliding backward by
`MAGIC_RFIND_WINDOW - MAGIC_RFIND_OVERLAP`; at BOF the header length. -/
def rfindBlockFromGo (file : List Nat) (hdrLen : Nat)
    (start_ end_ : Nat) : Nat :=
  match litFindIterLast bzMagic ((file.drop start_).take (end_ - start_)) with
  | some i => start_ + i
  | none =>
    if start_ = 0 then hdrLen
    else
      rfindBlockFromGo file hdrLen
        ((start_ + MAGIC_RFIND_OVERLAP) - MAGIC_RFIND_WINDOW)
        (start_ + MAGIC_RFIND_OVERLAP)
termination_by start_
decreasing_by
  simp only [MAGIC_RFIND_OVERLAP, MAGIC_RFIND_WINDOW]
  omega

def rfindBlockFrom (file : List Nat) (hdrLen byte : Nat) : Nat :=
  rfindBlockFromGo file hdrLen (byte - MAGIC_RFIND_WINDOW) byte

/-- The retry loop of `jump`: re-search candidates from the previous
ones, guarded by `InfiniteLoopBreaker(MAX_INVALID_BLOCKS)`; on breaker
exhaustion the last decoder error surfaces (`decodeFail`). -/
def bz2JumpGo (file : List Nat) (dec : Nat → Nat → Option (List Nat))
    (hdrLen : Nat) (start_ end_ brk : Nat) : Res ((Nat × Nat) × List Nat) :=
  let e := findBlockFrom file end_
  let st := rfindBlockFrom file hdrLen start_
  match dec st e with
  | some d => .ok ((st, e), d)
  | none =>
    if brk - 1 = 0 then .err .decodeFail
    else bz2JumpGo file dec hdrLen st e (brk - 1)
termination_by brk
decreasing_by omega

/-- `jump(byte)`: candidates from `byte` itself, decode (with retry),
then replace the block list with the one decoded block, rebuild
`data`, return the block start. -/
def jump (file : List Nat) (dec : Nat → Nat → Option (List Nat))
    (b : Bz2Buffer) (byte : Nat) : Res Nat × Bz2Buffer :=
  match bz2JumpGo file dec b.header.length byte byte MAX_INVALID_BLOCKS with
  | .ok ((s, e), d) =>
      (.ok s, { b with blocks := [⟨s, e, d⟩], decoded := d })
  | .err er => (.err er, b)

end Bz2Buffer

/-! ## Broker (`src/ui/backend.rs`)

Only the state the `Follow` command arm touches is modelled: the
`follow` flag and the file view. -/

structure BrokerState where
  follow : Bool
  fileView : FView
  deriving DecidableEq, Repr

/-- The `Command::Follow(follow)` arm of `CommandHandler::handle_command`:
set the flag, then unconditionally `self.file_view.bottom().await`. -/
def handleFollow (file : List Nat) (b : Bool) (st : BrokerState) :
    Res Unit × BrokerState :=
  let st1 := { st with follow := b }
  let (r, v) := FView.bottom file st1.fileView
  (r, { st1 with fileView := v })

/-! # Claim theorems -/

/-! ## C10: `DeVec::resize_front` -/

/-- An operation-built DeVec whose head offset hides stale storage:
`new` grown to `[7, 8]`, then shrunk to expose only the `8`. -/
def c10v : DeVec := ((DeVec.new.resizeBack 2).writeAt 0 [7, 8]).resizeFront 1

/-- C10 counterexample: growing `resize_front` does not always expose
default-valued elements.  `c10v` has `as_slice() = [8]` and `len = 1`;
after `resize_front(2)` the slice is `[7, 8]` — the reuse branch exposes
the stale `7` from previously allocated storage, not a default `0`. -/
theorem c10_counterexample :
    c10v.Wf ∧ c10v.len = 1 ∧ c10v.asSlice = [8] ∧
    (c10v.resizeFront 2).len = 2 ∧
    (c10v.resizeFront 2).asSlice = [7, 8] ∧
    (c10v.resizeFront 2).asSlice
      ≠ List.replicate (2 - c10v.len) 0 ++ c10v.asSlice := by
  decide

/-- C10 (amended): on a well-formed DeVec, `resize_front(n)` leaves
`len() = n`; shrinking keeps exactly the last `n` elements of the old
slice; growing yields the old slice preceded by some `n - old_len`
elements (defaults only when a fresh allocation occurs; the reuse
branch exposes previous storage contents). -/
theorem c10_resize_front (v : DeVec) (n : Nat) (h : v.Wf) :
    (v.resizeFront n).len = n ∧
    (n ≤ v.len → (v.resizeFront n).asSlice = v.asSlice.drop (v.len - n)) ∧
    (v.len ≤ n → ∃ pre : List Nat, pre.length = n - v.len ∧
      (v.resizeFront n).asSlice = pre ++ v.asSlice) :=
  ⟨DeVec.len_resizeFront v n h,
   fun h2 => DeVec.asSlice_resizeFront_shrink v n h h2,
   fun h2 => RawBuffer.resizeFront_pre v n h h2⟩

/-- C10 witness: the amended theorem applied to `⟨[7, 8], 1⟩` and
`n = 2`. -/
theorem c10_resize_front_witness :
    ((⟨[7, 8], 1⟩ : DeVec).resizeFront 2).len = 2 :=
  (c10_resize_front ⟨[7, 8], 1⟩ 2 (by decide)).1

/-! ## C9: `decode_utf8` -/

/-- C9 counterexample: on `"a" ++ [0xFF] ++ "aaa"` the longest valid
prefix is 1 byte and the invalid tail starts exactly 4 bytes from the
end, yet `decode_utf8` falls back to lossy decoding instead of
borrowing the prefix: the source tests `valid_up_to() > len - 4`,
which excludes the 4-byte boundary the claim includes. -/
theorem c9_counterexample :
    utf8ValidUpTo [97, 255, 97, 97, 97] = 1 ∧
    (5 : Nat) - utf8ValidUpTo [97, 255, 97, 97, 97] ≤ 4 ∧
    decodeUtf8 [97, 255, 97, 97, 97] = .lossy [97, 255, 97, 97, 97] ∧
    decodeUtf8 [97, 255, 97, 97, 97]
      ≠ .borrowed ([97, 255, 97, 97, 97].take
          (utf8ValidUpTo [97, 255, 97, 97, 97])) := by
  decide

/-- C9 (amended): for a slice shorter than `2^64` bytes, `decode_utf8`
borrows the whole input when it is valid; when it is invalid it
borrows the longest valid prefix exactly when the slice has at least
4 bytes and the invalid tail is strictly shorter than 4 bytes, and
falls back to lossy decoding otherwise (tail of 4 bytes or more, or a
slice shorter than 4 bytes, where `len - 4` wraps); it is total in
every case. -/
theorem c9_decode (data : List Nat) (hL : data.length < 2 ^ 64) :
    (utf8ValidUpTo data = data.length → decodeUtf8 data = .borrowed data) ∧
    (utf8ValidUpTo data ≠ data.length →
      (4 ≤ data.length ∧ data.length - 4 < utf8ValidUpTo data →
        decodeUtf8 data = .borrowed (data.take (utf8ValidUpTo data))) ∧
      ((data.length < 4 ∨ utf8ValidUpTo data ≤ data.length - 4) →
        decodeUtf8 data = .lossy data)) := by
  have h64 : U64 = 18446744073709551616 := by norm_num [U64]
  have hv := utf8ValidUpTo_le data
  refine ⟨fun h => by rw [decodeUtf8, if_pos h], fun h => ⟨?_, ?_⟩⟩
  · rintro ⟨h4, hgt⟩
    have hmod : (data.length + (U64 - 4)) % U64 = data.length - 4 := by
      rw [h64]
      omega
    rw [decodeUtf8, if_neg h, if_pos (by rw [hmod]; omega)]
  · intro hc
    rcases hc with hlt | hle
    · have hmod : (data.length + (U64 - 4)) % U64
          = data.length + (U64 - 4) := by
        rw [h64]
        omega
      rw [decodeUtf8, if_neg h, if_neg (by rw [hmod, h64]; omega)]
    · rcases Nat.lt_or_ge data.length 4 with h4 | h4
      · have hmod : (data.length + (U64 - 4)) % U64
            = data.length + (U64 - 4) := by
          rw [h64]
          omega
        rw [decodeUtf8, if_neg h, if_neg (by rw [hmod, h64]; omega)]
      · have hmod : (data.length + (U64 - 4)) % U64 = data.length - 4 := by
          rw [h64]
          omega
        rw [decodeUtf8, if_neg h, if_neg (by rw [hmod]; omega)]

/-- C9 witness: the amended theorem applied to the 5-byte slice with a
4-byte invalid tail (lossy case). -/
theorem c9_decode_witness :
    decodeUtf8 [97, 255, 97, 97, 97] = .lossy [97, 255, 97, 97, 97] :=
  ((c9_decode [97, 255, 97, 97, 97] (by norm_num)).2 (by decide)).2
    (by decide)

/-! ## C8: the `Follow` command -/

/-- C8 counterexample: `Follow(false)` also repositions the view.  On
file `"a\nb"` from the initial view, handling `Follow(false)` moves the
view to the bottom (`current_line` goes from `Some(1)` to `Some(0)` and
the buffer is re-anchored), so "bottom iff enabling" is false. -/
theorem c8_counterexample :
    (handleFollow [97, 10, 98] false ⟨false, FView.init⟩).2.follow = false ∧
    FView.init.currentLine = some 1 ∧
    (handleFollow [97, 10, 98] false
        ⟨false, FView.init⟩).2.fileView.currentLine = some 0 ∧
    (handleFollow [97, 10, 98] false ⟨false, FView.init⟩).2.fileView
      ≠ FView.init := by
  decide

/-- C8 (amended): handling `Follow(b)` sets the follow flag to `b` and
unconditionally moves the view to the bottom of the file, for both
`b = true` and `b = false`. -/
theorem c8_follow (file : List Nat) (b : Bool) (st : BrokerState) :
    (handleFollow file b st).2.follow = b ∧
    (handleFollow file b st).2.fileView = (FView.bottom file st.fileView).2 ∧
    (handleFollow file b st).1 = (FView.bottom file st.fileView).1 :=
  ⟨rfl, rfl, rfl⟩

/-! ## C6: raw buffer consistency under short reads -/

/-- A 100-byte file whose two halves are distinguishable. -/
def c6file : List Nat := List.replicate 50 1 ++ List.replicate 50 2

/-- The raw buffer after `jump(100)` and one `load_prev` whose read
returns 50 of the 100 requested bytes. -/
def c6res : Nat × RawBuffer :=
  RawBuffer.loadPrevR c6file 50 (RawBuffer.init.jump 100).2

/-- C6: after `jump(100)` on the 100-byte file and a `load_prev` whose
`read` returns only 50 bytes (a short read at offset 0, within file
bounds), the buffer claims the range `[50, 100)` but holds the bytes of
`[0, 50)`: `load_prev` reads at `buffer_offset - try_read_size` yet
only rewinds `buffer_offset` by the bytes actually read. -/
theorem c6_bug :
    c6res.1 = 50 ∧
    c6res.2.rangeStart = 50 ∧ c6res.2.rangeEnd = 100 ∧
    RawBuffer.data c6res.2 = List.replicate 50 1 ∧
    fileRead c6file c6res.2.rangeStart 50 = List.replicate 50 2 ∧
    RawBuffer.data c6res.2 ≠ fileRead c6file c6res.2.rangeStart 50 := by
  decide

/-! ## C7: bzip2 `jump` -/

/-- 4-byte header, a block magic at byte 4, two data bytes, a block
magic at byte 12, two data bytes (20 bytes in all). -/
def c7file : List Nat :=
  [66, 90, 104, 57] ++ bzMagic ++ [1, 2] ++ bzMagic ++ [3, 4]

/-- A decoder oracle: the compressed range `[4, 12)` decodes to
`[7, 7]` and the range `[4, 19)` to `[9, 9, 9]`. -/
def c7dec : Nat → Nat → Option (List Nat) := fun s e =>
  if s = 4 ∧ e = 12 then some [7, 7]
  else if s = 4 ∧ e = 19 then some [9, 9, 9]
  else none

/-- C7 counterexample: jumping to byte 12, itself a block-magic
position.  The code computes `end = find_block_from(byte)` (not
`byte + 1`), so `end = 12` and the decoded candidate is the preceding
block `[4, 12)`; under the claim's `end = find_block_from(byte + 1)`
the candidate would be `[4, 19)` with different decoded data, and the
stored block does not begin at byte 12. -/
theorem c7_counterexample :
    Bz2Buffer.jump c7file c7dec (Bz2Buffer.mk4 c7file) 12
      = (.ok 4, ⟨c7file.take 4, [⟨4, 12, [7, 7]⟩], [7, 7]⟩) ∧
    Bz2Buffer.findBlockFrom c7file (12 + 1) = 19 ∧
    c7dec (Bz2Buffer.rfindBlockFrom c7file 4 12)
        (Bz2Buffer.findBlockFrom c7file (12 + 1)) = some [9, 9, 9] ∧
    (⟨4, 12, [7, 7]⟩ : Bz2Block) ≠ ⟨4, 19, [9, 9, 9]⟩ ∧
    (4 : Nat) ≠ 12 := by
  have h0 : Bz2Buffer.findBlockFrom c7file 12 = 12 := by decide
  have h1 : Bz2Buffer.rfindBlockFrom c7file 4 12 = 4 := by
    rw [Bz2Buffer.rfindBlockFrom, Bz2Buffer.rfindBlockFromGo]
    decide
  have h2 : Bz2Buffer.bz2JumpGo c7file c7dec 4 12 12 MAX_INVALID_BLOCKS
      = .ok ((4, 12), [7, 7]) := by
    rw [Bz2Buffer.bz2JumpGo]
    simp only [h0, h1]
    decide
  refine ⟨?_, by decide, ?_, by decide, by decide⟩
  · rw [Bz2Buffer.jump]
    rw [show (Bz2Buffer.mk4 c7file).header.length = 4 from by decide, h2]
    decide
  · rw [h1]
    decide

/-- C7 (amended): `jump(byte)` computes its candidate block range as
`start = rfind_block_from(byte)` and `end = find_block_from(byte)` (the
end search starts at `byte` itself, not `byte + 1`); when the decoder
accepts that first candidate, the block list is replaced with the
single decoded block and `start` is returned.  At a block-magic
position `byte` the end search finds `byte` itself, so the decoded
candidate is the preceding block `[rfind_block_from(byte), byte)`. -/
theorem c7_jump (file : List Nat) (dec : Nat → Nat → Option (List Nat))
    (b : Bz2Buffer) (byte : Nat) (d : List Nat)
    (h : dec (Bz2Buffer.rfindBlockFrom file b.header.length byte)
           (Bz2Buffer.findBlockFrom file byte) = some d) :
    Bz2Buffer.jump file dec b byte
      = (.ok (Bz2Buffer.rfindBlockFrom file b.header.length byte),
         { b with
            blocks := [⟨Bz2Buffer.rfindBlockFrom file b.header.length byte,
                        Bz2Buffer.findBlockFrom file byte, d⟩],
            decoded := d }) := by
  rw [Bz2Buffer.jump, Bz2Buffer.bz2JumpGo]
  simp only [h]

/-- C7 witness: the amended theorem applied to `c7file`, `c7dec`,
byte 12. -/
theorem c7_jump_witness :
    Bz2Buffer.jump c7file c7dec (Bz2Buffer.mk4 c7file) 12
      = (.ok (Bz2Buffer.rfindBlockFrom c7file
            (Bz2Buffer.mk4 c7file).header.length 12),
         { Bz2Buffer.mk4 c7file with
            blocks := [⟨Bz2Buffer.rfindBlockFrom c7file
                          (Bz2Buffer.mk4 c7file).header.length 12,
                        Bz2Buffer.findBlockFrom c7file 12, [7, 7]⟩],
            decoded := [7, 7] }) :=
  c7_jump c7file c7dec (Bz2Buffer.mk4 c7file) 12 [7, 7]
    (by rw [show (Bz2Buffer.mk4 c7file).header.length = 4 from by decide,
          Bz2Buffer.rfindBlockFrom, Bz2Buffer.rfindBlockFromGo]
        decide)

/-! ## C4: the empty file -/

/-- On the empty file, the second `view` loop immediately hits `BOF`
and returns the (empty) current view. -/
theorem viewGo2_empty_file (nl : Nat) (nc : Option Nat) (s : FView)
    (hs : FView.WfI s) (hd : s.raw.data = []) (hob : s.raw.bufferOffset = 0) :
    (FView.viewGo2 [] nl nc s hs).1 = .ok [] := by
  have hvo1 : s.viewOffset = 0 := by
    have h2 := hs.2
    rw [hd] at h2
    simpa using h2
  have hlpr : (s.raw.loadPrev []).1 = 0 := by
    have he : (s.raw.loadPrev []).1 = FView.loadPrevSize [] s.raw := rfl
    rw [he]
    unfold FView.loadPrevSize
    rw [hob]
    simp
  have hpfacts := FView.fvLoadPrev_facts [] s hs (by rw [hd, hlpr]; decide)
  rw [hlpr] at hpfacts
  obtain ⟨hload2, hrsz, hdata2, hoff2, hwf2⟩ := hpfacts
  have hup : FView.up [] s 1 = (.err .bof,
      { { s with raw := (s.raw.loadPrev []).2, viewOffset := s.viewOffset + 0 } with viewOffset := 0, currentLine := some 1 }) := by
    rw [FView.up]
    refine FView.upGo_bof [] s 1 10 _ (by decide) (by decide) ?_ hload2 ?_
    · rw [show FView.aboveView s = [] from by rw [FView.aboveView, hd]; simp]
      decide
    · simp only
      rw [hvo1]
  rw [FView.viewGo2_up_err [] nl nc s hs .bof _ hup]
  show Res.ok (FView.fvLines _) = Res.ok []
  rw [FView.fvLines, FView.currentView]
  simp only
  rw [hdata2, hd]
  simp only [fileRead, List.drop_nil, List.take_nil, List.append_nil]
  rfl

/-- C4 (confirmed): on a zero-byte raw file, `top()` succeeds,
`bottom()` succeeds (the wrapping `total_size() - 1` jump does not
trap), `down(1)` returns `EOF`, and `view(10, None)` returns an empty
sequence of lines. -/
theorem c4_empty_file :
    (FView.top [] FView.init).1 = .ok () ∧
    (FView.bottom [] FView.init).1 = .ok () ∧
    (FView.down [] FView.init 1).1 = .err .eof ∧
    (FView.view [] 10 none FView.init FView.wfI_init).1 = .ok [] := by
  have hfacts := FView.fvLoadNext_facts [] FView.init FView.wfI_init
    (by decide)
  have hmin : min BUFFER_SIZE (List.length ([] : List Nat)
      - FView.init.raw.rangeEnd) = 0 := by decide
  rw [hmin] at hfacts
  obtain ⟨hload, hdata, hoff, hwf⟩ := hfacts
  have hdown : FView.down [] FView.init 1 = (.err .eof,
      { FView.init with raw := (FView.init.raw.loadNext []).2 }) := by
    rw [FView.down]
    exact FView.downGo_eof [] FView.init 1 10 _ (by decide) (by decide)
      (by decide) hload
  refine ⟨by decide, by decide, by rw [hdown], ?_⟩
  have hscan : FView.viewScan 10 none (FView.fvLines FView.init) 0 0
      = none := by decide
  rw [FView.view]
  have hgo := FView.viewGo1_break [] 10 none FView.init FView.wfI_init
    _ hwf hscan hload
  rw [hgo]
  exact viewGo2_empty_file 10 none _ hwf
    (by show ((FView.init.raw.loadNext []).2).data = []
        rw [hdata]
        rfl)
    (by show ((FView.init.raw.loadNext []).2).bufferOffset = 0
        rw [hoff]
        rfl)

/-! ## C5: `current_line` bookkeeping of the motions -/

/-- C5 counterexample: on the two-byte file `"ab"`, `bottom()` leaves
`current_line = Some(0)`; `up(1)` then *succeeds* (the BOF reset path
inside the loop consumes the error), leaving `current_line = Some(1)`,
not `Some(0 - 1)`. -/
theorem c5_counterexample :
    (FView.bottom [97, 98] FView.init).2.currentLine = some 0 ∧
    (FView.up [97, 98] (FView.bottom [97, 98] FView.init).2 1).1
      = .ok () ∧
    (FView.up [97, 98] (FView.bottom [97, 98] FView.init).2 1).2.currentLine
      = some 1 ∧
    some (1 : Int) ≠ some ((0 : Int) - 1) := by
  have hb : (FView.bottom [97, 98] FView.init).2
      = ⟨⟨1, ⟨[], 0⟩⟩, 0, some 0⟩ := by decide
  have h1 := FView.upGo_load [97, 98] ⟨⟨1, ⟨[], 0⟩⟩, 0, some 0⟩ 1 10 1
    ⟨⟨0, ⟨[97], 0⟩⟩, 1, some 0⟩ (by decide) (by decide) (by decide)
    (by decide) (by decide)
  have h2 := FView.upGo_bofreset [97, 98] ⟨⟨0, ⟨[97], 0⟩⟩, 1, some 0⟩ 1 9
    ⟨⟨0, ⟨[97], 0⟩⟩, 1, some 0⟩ (by decide) (by decide) (by decide)
    (by decide) (by decide)
  refine ⟨by decide, ?_, ?_, by decide⟩
  · rw [hb, FView.up, h1, h2, FView.upGo_zero]
  · rw [hb, FView.up, h1, h2, FView.upGo_zero]

/-- C5 (amended): if `current_line = Some(x)` and the motion succeeds,
`down(n)` yields `Some(x + n)`; a successful `up(n)` (with `n ≥ 1`)
yields `Some(x - n)` when it ends inside the buffer
(`view_offset ≠ 0`), but `Some(1)` when the motion was absorbed at the
beginning of file; an `up` ending in the `BOF` error leaves `Some(1)`;
`bottom()` always sets `Some(0)`. -/
theorem c5_line_motion (file : List Nat) (s : FView) (n : Nat) (x : Int)
    (h : FView.WfI s) (hx : s.currentLine = some x) :
    ((FView.down file s n).1 = .ok () →
      (FView.down file s n).2.currentLine = some (x + n)) ∧
    (1 ≤ n → (FView.up file s n).1 = .ok () →
      ((FView.up file s n).2.viewOffset ≠ 0 ∧
        (FView.up file s n).2.currentLine = some (x - n)) ∨
      ((FView.up file s n).2.viewOffset = 0 ∧
        (FView.up file s n).2.currentLine = some 1)) ∧
    ((FView.up file s n).1 = .err .bof →
      (FView.up file s n).2.currentLine = some 1) ∧
    (FView.bottom file s).2.currentLine = some 0 := by
  refine ⟨?_, ?_, ?_, rfl⟩
  · intro hok
    exact FView.downGo_ok_currentLine file s n 10 h x hx hok
  · intro hn hok
    exact ((FView.upGo_currentLine file s n 10) h x hx hn).1 hok
  · intro hbof
    cases n with
    | zero =>
      rw [show FView.up file s 0 = FView.upGo file s 0 10 from rfl,
        FView.upGo_zero] at hbof
      exact absurd hbof (by simp)
    | succ m =>
      exact (((FView.upGo_currentLine file s (m + 1) 10) h x hx
        (by omega)).2 hbof).1

/-- C5 witness: the amended theorem applied to the file `"a\nb"` from
the initial state with `down(1)`. -/
theorem c5_line_motion_witness :
    (FView.down [97, 10, 98] FView.init 1).2.currentLine
      = some ((1 : Int) + (1 : Nat)) := by
  apply (c5_line_motion [97, 10, 98] FView.init 1 1 FView.wfI_init rfl).1
  have hfacts := FView.fvLoadNext_facts [97, 10, 98] FView.init
    FView.wfI_init (by decide)
  have hmin : min BUFFER_SIZE (List.length [97, 10, 98]
      - FView.init.raw.rangeEnd) = 3 := by decide
  rw [hmin] at hfacts
  obtain ⟨hload, hdata, hoff, hwf⟩ := hfacts
  have hcv : FView.currentView
      { FView.init with raw := (FView.init.raw.loadNext [97, 10, 98]).2 }
      = [97, 10, 98] := by
    rw [FView.currentView]
    simp only
    rw [hdata]
    rfl
  rw [FView.down]
  rw [FView.downGo_load [97, 10, 98] FView.init 1 10 3 _ (by decide)
    (by decide) (by decide) hload (by decide)]
  rw [FView.downGo_found [97, 10, 98] _ 1 9 0 1 (by decide) (by decide)
    (by rw [hcv]; decide)]
  rw [show (1 : Nat) - (1 + 0) = 0 from rfl, FView.downGo_zero]

/-! ## C3: the view-offset invariant and `load_state` -/

/-- C3 counterexample: on file `"a\nb\n"`, `down(1)` yields a state
with `view_offset = 2` that satisfies the invariant; saving it and
immediately restoring the mark jumps the buffer (clearing its data)
while restoring `view_offset = 2`, so afterwards
`view_offset > len(buffer.data())` and the invariant is broken. -/
theorem c3_counterexample :
    FView.WfI (FView.down [97, 10, 98, 10] FView.init 1).2 ∧
    (FView.loadState
        (FView.saveState (FView.down [97, 10, 98, 10] FView.init 1).2)
        (FView.down [97, 10, 98, 10] FView.init 1).2).2.viewOffset = 2 ∧
    ((FView.loadState
        (FView.saveState (FView.down [97, 10, 98, 10] FView.init 1).2)
        (FView.down [97, 10, 98, 10] FView.init 1).2).2.raw.data).length
      = 0 ∧
    ¬ FView.WfI (FView.loadState
        (FView.saveState (FView.down [97, 10, 98, 10] FView.init 1).2)
        (FView.down [97, 10, 98, 10] FView.init 1).2).2 := by
  have hfacts := FView.fvLoadNext_facts [97, 10, 98, 10] FView.init
    FView.wfI_init (by decide)
  have hmin : min BUFFER_SIZE (List.length [97, 10, 98, 10]
      - FView.init.raw.rangeEnd) = 4 := by decide
  rw [hmin] at hfacts
  obtain ⟨hload, hdata, hoff, hwf⟩ := hfacts
  have hcv : FView.currentView
      { FView.init with raw := (FView.init.raw.loadNext [97, 10, 98, 10]).2 }
      = [97, 10, 98, 10] := by
    rw [FView.currentView]
    simp only
    rw [hdata]
    rfl
  have hdown : FView.down [97, 10, 98, 10] FView.init 1 = (.ok (),
      { { FView.init with
          raw := (FView.init.raw.loadNext [97, 10, 98, 10]).2 } with
          viewOffset := FView.init.viewOffset + 1 + 1,
          currentLine := FView.init.currentLine.map (fun x => x + 1 + 0) }) := by
    rw [FView.down]
    rw [FView.downGo_load [97, 10, 98, 10] FView.init 1 10 4 _ (by decide)
      (by decide) (by decide) hload (by decide)]
    rw [FView.downGo_found [97, 10, 98, 10] _ 1 9 0 1 (by decide)
      (by decide) (by rw [hcv]; decide)]
    rw [show (1 : Nat) - (1 + 0) = 0 from rfl, FView.downGo_zero]
    rfl
  rw [hdown]
  refine ⟨⟨hwf.1, ?_⟩, rfl, ?_, ?_⟩
  · show FView.init.viewOffset + 1 + 1
        ≤ (((FView.init.raw.loadNext [97, 10, 98, 10]).2).data).length
    rw [hdata]
    decide
  · rw [FView.loadState_spec]
    show (DeVec.asSlice (DeVec.clear _)).length = 0
    rw [DeVec.clear_asSlice]
    rfl
  · intro hcontra
    have h2 := hcontra.2
    rw [FView.loadState_spec] at h2
    simp [FView.saveState, DeVec.clear_asSlice, RawBuffer.data] at h2

/-- C3 (amended): the invariant `0 ≤ view_offset ≤ len(buffer.data())`
holds after construction and is preserved by `up`, `down`,
`jump_to_byte`, `top`, `bottom`, `jump_to_line`, `view`, and by the
searches except on their no-match path; `save_state` does not mutate
the view.  `load_state`, however, jumps the buffer (emptying its data)
while restoring the saved `view_offset`, so it re-establishes the
invariant exactly when the saved `view_offset` is 0 — the search
no-match restore path goes through `load_state` and inherits this. -/
theorem c3_invariant (file : List Nat) (s : FView) (st : VState)
    (n : Nat) (line : Int) (bytes : Nat) (nl : Nat) (nc : Option Nat)
    (reF reL : List Nat → Option (Nat × Nat)) (cancel : Nat → Bool)
    (skip : Bool) (hs : FView.WfI s) :
    FView.WfI FView.init ∧
    FView.WfI (FView.up file s n).2 ∧
    FView.WfI (FView.down file s n).2 ∧
    FView.WfI (FView.jumpToByte file bytes s).2 ∧
    FView.WfI (FView.top file s).2 ∧
    FView.WfI (FView.bottom file s).2 ∧
    FView.WfI (FView.jumpToLine file line s).2 ∧
    FView.WfI (FView.view file nl nc s hs).2 ∧
    ((FView.downToLineMatching file reF cancel skip s).1
        ≠ .err .noMatchFound →
      FView.WfI (FView.downToLineMatching file reF cancel skip s).2) ∧
    ((FView.upToLineMatching file reL cancel s).1 ≠ .err .noMatchFound →
      FView.WfI (FView.upToLineMatching file reL cancel s).2) ∧
    (FView.WfI (FView.loadState st s).2 ↔ st.viewOffset = 0) :=
  ⟨FView.wfI_init,
   FView.upGo_wfI file s n 10 hs,
   FView.downGo_wfI file s n 10 hs,
   FView.jumpToByte_wfI file bytes s hs,
   FView.top_wfI file s hs,
   FView.bottom_wfI file s hs,
   FView.jumpToLine_wfI file line s hs,
   FView.view_wfI file nl nc s hs,
   fun hne => FView.downToLineMatching_wfI file reF cancel skip s hs hne,
   fun hne => FView.upToLineMatching_wfI file reL cancel s hs hne,
   FView.loadState_wfI_iff st s hs⟩

/-- C3 witness: the amended theorem applied to the one-byte file `"a"`
from the initial state. -/
theorem c3_invariant_witness :
    FView.WfI (FView.up [97] FView.init 1).2 :=
  (c3_invariant [97] FView.init ⟨0, 0, none⟩ 1 0 0 0 none
    (fun _ => none) (fun _ => none) (fun _ => false) false
    FView.wfI_init).2.1

/-! ## C2: `SearchDown("gam")` on `alpha/beta/gamma` -/

/-- The file `"alpha\nbeta\ngamma\n"`. -/
def c2file : List Nat :=
  [97, 108, 112, 104, 97, 10, 98, 101, 116, 97, 10,
   103, 97, 109, 109, 97, 10]

/-- C2: the search for `"gam"` succeeds and leaves `current_line`
unknown as claimed, but the first visible line afterwards is
`"beta"`, not `"gamma"`: the match starts at byte 11, the exact start
of the `"gamma"` line, and `jump_to_byte`'s unconditional `up(1)`
re-alignment overshoots onto the previous line. -/
theorem c2_bug :
    (FView.downToLineMatching c2file (litMatcher [103, 97, 109])
        (fun _ => false) false FView.init).1 = .ok () ∧
    (FView.downToLineMatching c2file (litMatcher [103, 97, 109])
        (fun _ => false) false FView.init).2.currentLine = none ∧
    (FView.currentView (FView.downToLineMatching c2file
        (litMatcher [103, 97, 109]) (fun _ => false) false
        FView.init).2).takeWhile (fun b => b != 10)
      = [98, 101, 116, 97] ∧
    ([98, 101, 116, 97] : List Nat) ≠ [103, 97, 109, 109, 97] := by
  have hfind : rawFind c2file (litMatcher [103, 97, 109])
      (fun _ => false) FView.init.raw = .found 11 14 := by
    rw [rawFind, rawFindGo]
    rfl
  have hmain := FView.downToLineMatching_found c2file
    (litMatcher [103, 97, 109]) (fun _ => false) false FView.init 11 14
    (by rw [show (if false then
        (FView.down c2file FView.init 1).2 else FView.init)
        = FView.init from rfl]
        exact hfind)
  rw [show (if false then (FView.down c2file FView.init 1).2
      else FView.init) = FView.init from rfl] at hmain
  have hjb : FView.jumpToByte c2file 11 FView.init
      = FView.up c2file ⟨⟨11, ⟨[], 0⟩⟩, 0, none⟩ 1 := by
    rw [FView.jumpToByte]
    rfl
  have hu1 := FView.upGo_load c2file ⟨⟨11, ⟨[], 0⟩⟩, 0, none⟩ 1 10 11
    ⟨⟨0, ⟨[0, 0, 0, 0, 0, 97, 108, 112, 104, 97, 10, 98, 101, 116, 97, 10],
        5⟩⟩, 11, none⟩
    (by decide) (by decide) (by decide) (by decide) (by decide)
  have hu2 := FView.upGo_found c2file
    ⟨⟨0, ⟨[0, 0, 0, 0, 0, 97, 108, 112, 104, 97, 10, 98, 101, 116, 97, 10],
        5⟩⟩, 11, none⟩ 1 9 0 5 (by decide) (by decide) (by decide)
  have hupall : FView.up c2file ⟨⟨11, ⟨[], 0⟩⟩, 0, none⟩ 1
      = (.ok (),
         ⟨⟨0, ⟨[0, 0, 0, 0, 0, 97, 108, 112, 104, 97, 10, 98, 101, 116, 97,
             10], 5⟩⟩, 6, none⟩) := by
    rw [FView.up, hu1, hu2, show (1 : Nat) - (1 + 0) = 0 from rfl,
      FView.upGo_zero]
    rfl
  rw [hmain, hjb, hupall]
  refine ⟨rfl, rfl, by decide, by decide⟩

/-! ## C1: state restoration on failed searches -/

/-- A file larger than one search window: `"a\n"` followed by 2^20
`'a'` bytes, so the windowed search reaches its between-window cancel
check. -/
def c1file : List Nat := 97 :: 10 :: List.replicate 0x100000 97

theorem c1_hlen : c1file.length = 1048578 := by
  rw [c1file]
  rw [List.length_cons, List.length_cons, List.length_replicate]

theorem c1_hmin : min BUFFER_SIZE (c1file.length - FView.init.raw.rangeEnd)
    = 65536 := by
  rw [c1_hlen]
  decide

theorem c1_hfacts :
    FView.fvLoadNext c1file FView.init
        = (.ok 65536,
           { FView.init with raw := (FView.init.raw.loadNext c1file).2 }) ∧
      ((FView.init.raw.loadNext c1file).2).data
        = FView.init.raw.data
            ++ fileRead c1file FView.init.raw.rangeEnd 65536 ∧
      ((FView.init.raw.loadNext c1file).2).bufferOffset
        = FView.init.raw.bufferOffset ∧
      FView.WfI { FView.init with
        raw := (FView.init.raw.loadNext c1file).2 } := by
  have hsmall : (FView.init.raw.data).length
      + min BUFFER_SIZE (c1file.length - FView.init.raw.rangeEnd)
      < SHRINK_THRESHOLD := by
    rw [c1_hlen]
    decide
  have hfacts := FView.fvLoadNext_facts c1file FView.init
    FView.wfI_init hsmall
  rw [c1_hmin] at hfacts
  exact hfacts

theorem c1_htake : List.take 65536 c1file
    = 97 :: 10 :: List.replicate 65534 97 := by
  rw [c1file]
  rw [show (65536 : Nat) = 65535 + 1 from rfl, List.take_succ_cons]
  rw [show (65535 : Nat) = 65534 + 1 from rfl, List.take_succ_cons]
  rw [List.take_replicate]
  rw [show min 65534 0x100000 = 65534 from by decide]

theorem c1_hcv : FView.currentView
    { FView.init with raw := (FView.init.raw.loadNext c1file).2 }
    = 97 :: 10 :: List.replicate 65534 97 := by
  rw [FView.currentView]
  simp only
  rw [c1_hfacts.2.1]
  rw [show fileRead c1file FView.init.raw.rangeEnd 65536
      = List.take 65536 c1file from rfl, c1_htake]
  rfl

theorem c1_hdown : FView.down c1file FView.init 1 = (.ok (),
    { { FView.init with raw := (FView.init.raw.loadNext c1file).2 } with
        viewOffset := FView.init.viewOffset + 1 + 1,
        currentLine := FView.init.currentLine.map (fun x => x + 1 + 0) }) := by
  rw [FView.down]
  rw [FView.downGo_load c1file FView.init 1 10 65536 _ (by decide)
    (by decide) (by decide) c1_hfacts.1 (by decide)]
  rw [FView.downGo_found c1file _ 1 9 0 1 (by decide) (by decide)
    (by rw [c1_hcv]; rfl)]
  rw [show (1 : Nat) - (1 + 0) = 0 from rfl, FView.downGo_zero]
  rfl

theorem c1_hfr : rawFind c1file (fun _ => none) (fun _ => true)
    ((FView.init.raw.loadNext c1file).2) = .interrupted := by
  rw [rawFind, c1_hfacts.2.2.1]
  rw [show FView.init.raw.bufferOffset = 0 from rfl]
  rw [rawFindGo]
  rw [c1_hlen]
  rfl

theorem c1_hyp : rawFind c1file (fun _ => none) (fun _ => true)
    ((if true then (FView.down c1file FView.init 1).2
      else FView.init)).raw = .interrupted := by
  have hraw : ((if true then (FView.down c1file FView.init 1).2
      else FView.init)).raw = (FView.init.raw.loadNext c1file).2 := by
    rw [show (if true then (FView.down c1file FView.init 1).2
        else FView.init) = (FView.down c1file FView.init 1).2
        from if_pos rfl,
      c1_hdown]
  rw [hraw]
  exact c1_hfr

/-- C1 counterexample: a `SearchDownNext` (skip_current = true) that is
cancelled between search windows returns `Cancelled` but leaves the
view on the state after the preliminary `down(1)` — the `ViewState`
triple `(view_offset, range start, current_line)` is `(2, 0, Some(2))`,
not the saved `(0, 0, Some(1))`. -/
theorem c1_counterexample :
    (FView.downToLineMatching c1file (fun _ => none) (fun _ => true)
        true FView.init).1 = .err .cancelled ∧
    FView.saveState FView.init = ⟨0, 0, some 1⟩ ∧
    FView.saveState (FView.downToLineMatching c1file (fun _ => none)
        (fun _ => true) true FView.init).2 = ⟨2, 0, some 2⟩ ∧
    FView.saveState (FView.downToLineMatching c1file (fun _ => none)
        (fun _ => true) true FView.init).2 ≠ FView.saveState FView.init := by
  have hmain := FView.downToLineMatching_interrupted c1file
    (fun _ => none) (fun _ => true) true FView.init c1_hyp
  rw [show (if true then (FView.down c1file FView.init 1).2
      else FView.init) = (FView.down c1file FView.init 1).2
      from if_pos rfl,
    c1_hdown] at hmain
  rw [hmain]
  refine ⟨rfl, rfl, rfl, by decide⟩

/-- C1 (amended): a failed search restores or preserves the view as
follows.  A no-match search (down with any `skip_current`, or up)
returns `NoMatchFound` with the saved `ViewState` triple restored
(through `load_state`, which empties the buffer data as a side
effect).  A cancelled up search, or a cancelled down search with
`skip_current = false`, leaves the view exactly as it was.  A
cancelled down search with `skip_current = true` returns with the
state left by the preliminary `down(1)`, which is not restored (see
the counterexample). -/
theorem c1_search_restore (file : List Nat)
    (reF reL : List Nat → Option (Nat × Nat)) (cancel : Nat → Bool)
    (skip : Bool) (s : FView) :
    (rawFind file reF cancel
        ((if skip then (FView.down file s 1).2 else s)).raw = .nomatch →
      (FView.downToLineMatching file reF cancel skip s).1
          = .err .noMatchFound ∧
      FView.saveState (FView.downToLineMatching file reF cancel skip s).2
          = FView.saveState s) ∧
    (rawFind file reF cancel
        ((if skip then (FView.down file s 1).2 else s)).raw = .interrupted →
      skip = false →
      FView.downToLineMatching file reF cancel skip s
        = (.err .cancelled, s)) ∧
    (rawRfind file reL cancel s.raw = .nomatch →
      (FView.upToLineMatching file reL cancel s).1 = .err .noMatchFound ∧
      FView.saveState (FView.upToLineMatching file reL cancel s).2
          = FView.saveState s) ∧
    (rawRfind file reL cancel s.raw = .interrupted →
      FView.upToLineMatching file reL cancel s = (.err .cancelled, s)) := by
  refine ⟨?_, ?_, ?_, ?_⟩
  · intro h
    rw [FView.downToLineMatching_nomatch file reF cancel skip s h]
    exact ⟨rfl, rfl⟩
  · intro h hskip
    subst hskip
    rw [FView.downToLineMatching_interrupted file reF cancel false s h]
    rfl
  · intro h
    rw [FView.upToLineMatching_nomatch file reL cancel s h]
    exact ⟨rfl, rfl⟩
  · intro h
    exact FView.upToLineMatching_interrupted file reL cancel s h

/-- C1 witness: the amended theorem applied to the empty file, where
both searches report no match and the triple is restored. -/
theorem c1_search_restore_witness :
    (FView.downToLineMatching [] (fun _ => none) (fun _ => false)
        false FView.init).1 = .err .noMatchFound ∧
    FView.saveState (FView.downToLineMatching [] (fun _ => none)
        (fun _ => false) false FView.init).2
      = FView.saveState FView.init :=
  (c1_search_restore [] (fun _ => none) (fun _ => none) (fun _ => false)
      false FView.init).1
    (by rw [show (if false then (FView.down [] FView.init 1).2
          else FView.init) = FView.init from rfl, rawFind, rawFindGo]
        rfl)

end Bless
